import Mathlib

/-!
Shallow embedding of `PyramidSolver.go` (a Pyramid Solitaire solver) and
verification of its specification claims.

Go slices of strings become `List String`; the Go `map[string]int` visited
table becomes an association list with the same lookup/insert observable
behaviour; the unbounded Go recursion in `solveState` becomes a fuel-indexed
function returning `none` when the fuel runs out, and termination of the Go
program is expressed as existence of sufficient fuel.
-/

namespace PyramidSolver

/-- The empty string (Go `""`, also the removed-card marker in the pyramid). -/
def emptyStr : String := ""

/-- The serialization sentinel Go writes for a removed card. -/
def xxStr : String := "XX"

/-- The literal `"10"` used for the two-digit rank prefix test. -/
def ten : String := "10"

/-- Embedding of Go `strings.ToLower` (lower-case every character). -/
def goToLower (s : String) : String := String.mk (s.data.map Char.toLower)

/-- Embedding of Go `strings.HasPrefix s pre`. -/
def goHasPrefix (s pre : String) : Bool := pre.data.isPrefixOf s.data

/-- The `switch` of Go `getCardValue` on the lower-cased first character:
a=1, digits as themselves, j=11, q=12, k=13, default 0. -/
def rankValue (c : Char) : Nat :=
  if c = 'a' then 1
  else if c = '2' then 2
  else if c = '3' then 3
  else if c = '4' then 4
  else if c = '5' then 5
  else if c = '6' then 6
  else if c = '7' then 7
  else if c = '8' then 8
  else if c = '9' then 9
  else if c = 'j' then 11
  else if c = 'q' then 12
  else if c = 'k' then 13
  else 0

/-- Embedding of Go `getCardValue`.  Go first tests for the `"10"` prefix and
otherwise indexes `card[0]`, which panics on the empty string; the `none`
result models exactly that panic. -/
def getCardValue (card : String) : Option Nat :=
  if goHasPrefix card ten then some 10
  else
    match card.data with
    | [] => none
    | ch :: _ => some (rankValue ch.toLower)

/-- Total wrapper used at the solver's call sites, where the argument is never
the empty string (so it always agrees with the Go code; the default is never
produced there). -/
def cardValueD (card : String) : Nat := (getCardValue card).getD 0

/-- Rank display name (`formatCard`'s first switch; default keeps the rank). -/
def rankName (rank : String) : String :=
  if rank = "a" then "Ace"
  else if rank = "j" then "Jack"
  else if rank = "q" then "Queen"
  else if rank = "k" then "King"
  else rank

/-- Suit display name (`formatCard`'s second switch; default keeps the
original suit character). -/
def suitName (suitChar : String) : String :=
  let lower := goToLower suitChar
  if lower = "c" then "Clubs"
  else if lower = "d" then "Diamonds"
  else if lower = "h" then "Hearts"
  else if lower = "s" then "Spades"
  else suitChar

def emptyName : String := "Empty"
def ofSep : String := " of "

/-- Embedding of Go `formatCard`. -/
def formatCard (card : String) : String :=
  if card = emptyStr ∨ card = xxStr then emptyName
  else
    let rank : String :=
      if goHasPrefix card ten then ten
      else String.mk [(card.data.headD ' ').toLower]
    let suitChar : String :=
      if goHasPrefix card ten then
        if 2 < card.data.length then String.mk [card.data.getD 2 ' '] else emptyStr
      else String.mk [card.data.getLastD ' ']
    rankName rank ++ ofSep ++ suitName suitChar

def ranks : List String := [ "a", "2", "3", "4", "5", "6", "7", "8", "9", "10", "j", "q", "k"]
def suits : List String := [ "c", "d", "h", "s"]

/-- The 52 rank-suit combinations in the order Go's nested loops visit them. -/
def combos : List String := (ranks.map (fun r => suits.map (fun s => r ++ s))).flatten

def lenErrMsg : String := "deck must contain 52 cards, but found "
def missingMsg : String := "missing card: "
def dupMsg1 : String := "duplicate card: "
def dupMsg2 : String := " (appears "
def dupMsg3 : String := " times)"

/-- The combo loop of `checkDeck`: first missing (count 0) or duplicated
(count above 1) combo yields an error, in loop order. -/
def comboCheck (counts : String → Nat) : List String → Option String
  | [] => none
  | card :: rest =>
    if counts card = 0 then some (missingMsg ++ formatCard card)
    else if 1 < counts card then
      some (dupMsg1 ++ formatCard card ++ dupMsg2 ++ toString (counts card) ++ dupMsg3)
    else comboCheck counts rest

/-- Embedding of Go `checkDeck`: `none` means the Go function returned `nil`.
The Go count map sends a key to the number of lower-cased occurrences, with
absence exactly when that count is 0. -/
def checkDeck (cards : List String) : Option String :=
  if cards.length ≠ 52 then some (lenErrMsg ++ toString cards.length)
  else comboCheck (fun c => (cards.map goToLower).count c) combos

/-- An exposed pyramid card (Go struct `ExposedCard`). -/
structure ExposedCard where
  row : Nat
  col : Nat
  card : String
  value : Nat

/-- Go struct `GameState`. -/
structure GameState where
  Pyramid : List (List String)
  Deck : List String
  Waste : List String
  Moves : List String

/-- Go struct `Result`. -/
structure Result where
  Moves : List String
  RemovedCount : Nat

/-- The memoization-relevant projection of a state: `serializeState` and all
move generation read only these three fields. -/
structure Core where
  P : List (List String)
  D : List String
  W : List String

def coreOf (s : GameState) : Core := ⟨s.Pyramid, s.Deck, s.Waste⟩

/-- Start index of pyramid row `r` in the card list (Go's running `index`). -/
def triangle (r : Nat) : Nat := r * (r + 1) / 2

/-- Embedding of Go `buildPyramid`: 7 rows, row `r` holding the `r+1` cards
starting at index `triangle r`. -/
def buildPyramid (cards : List String) : List (List String) :=
  (List.range 7).map (fun r => (cards.drop (triangle r)).take (r + 1))

/-- Cell access with the defaults Go's in-range indexing never hits. -/
def cellD (p : List (List String)) (r c : Nat) : String := (p.getD r []).getD c emptyStr

/-- Embedding of Go `getExposedCards`: scan rows then columns; a card is kept
when present and either on the bottom row or with both cards beneath removed. -/
def getExposedCards (pyramid : List (List String)) : List ExposedCard :=
  ((List.range pyramid.length).map (fun r =>
    (List.range (pyramid.getD r []).length).filterMap (fun c =>
      let card := cellD pyramid r c
      if card ≠ emptyStr ∧
          (r = pyramid.length - 1 ∨
            (cellD pyramid (r + 1) c = emptyStr ∧ cellD pyramid (r + 1) (c + 1) = emptyStr))
      then some ⟨r, c, card, cardValueD card⟩
      else none))).flatten

/-- Embedding of Go `isPyramidEmpty`. -/
def isPyramidEmpty (p : List (List String)) : Bool :=
  p.all (fun row => row.all (fun card => card == emptyStr))

/-- Embedding of Go `countRemoved`. -/
def countRemoved (p : List (List String)) : Nat :=
  (p.map (fun row => row.countP (fun card => card == emptyStr))).sum

/-- In-place cell clearing `pyramid[r][c] = ""` (always called in range). -/
def removeCell (p : List (List String)) (r c : Nat) : List (List String) :=
  p.set r ((p.getD r []).set c emptyStr)

/-- The inline pyramid removal of `solveState`, with Go's slice-index panic
modelled as `none`: Go panics exactly when the position is out of bounds, and
otherwise silently writes `""` (the source has no empty-slot check). -/
def removeCardAt (p : List (List String)) (r c : Nat) : Option (List (List String)) :=
  if r < p.length ∧ c < (p.getD r []).length then some (removeCell p r c) else none

def commaStr : String := ","
def semiStr : String := ";"
def barStr : String := "|"

/-- `strings.Join` / comma-and-semicolon joining used by `serializeState`. -/
def joinSep (sep : String) : List String → String
  | [] => emptyStr
  | [x] => x
  | x :: y :: rest => x ++ sep ++ joinSep sep (y :: rest)

/-- A pyramid cell as serialized (`XX` sentinel for a removed card). -/
def encCell (card : String) : String := if card = emptyStr then xxStr else card

def serializeRow (row : List String) : String := joinSep commaStr (row.map encCell)

def serializeCore (c : Core) : String :=
  joinSep semiStr (c.P.map serializeRow) ++ barStr ++
    joinSep commaStr c.D ++ barStr ++ joinSep commaStr c.W

/-- Embedding of Go `serializeState`: pyramid rows joined by `;` with cells
joined by `,` (`XX` for removed), then `|`, the deck joined by `,`, then `|`,
the waste joined by `,`.  It never reads `Moves`. -/
def serializeState (s : GameState) : String := serializeCore (coreOf s)

/-- Stable insertion into a row-descending sorted list: existing entries with
the same row stay in front. -/
def insertByRow (e : ExposedCard) : List ExposedCard → List ExposedCard
  | [] => [e]
  | f :: rest => if e.row < f.row then f :: insertByRow e rest else e :: f :: rest

/-- The `sort.Slice` call of `solveState`: sort exposed cards by row
descending (bottom row first); a stable sort keeping the scan order among
equal rows. -/
def sortExposed : List ExposedCard → List ExposedCard
  | [] => []
  | e :: rest => insertByRow e (sortExposed rest)

def msgRemove1 : String := "Remove "
def msgRemove2 : String := " from pyramid at "
def msgPair1 : String := "Remove pair from pyramid: "
def msgAt : String := " at "
def msgAnd : String := " and "
def msgWaste1 : String := "Remove waste card "
def msgWaste2 : String := " and pyramid card "
def msgDrawKing : String := "Draw and remove King from deck: "
def msgDraw : String := "Draw card from deck: "
def msgRecycle : String := "Recycle waste into deck"
def lparStr : String := "("
def rparStr : String := ")"

/-- The `(%d,%d)` coordinate part of the move messages. -/
def coordStr (r c : Nat) : String :=
  lparStr ++ toString r ++ commaStr ++ toString c ++ rparStr

/-- Move generation step 1a: remove any exposed King (value 13), in the order
of the sorted exposed list. -/
def kingMovesC (c : Core) (ex : List ExposedCard) : List (Core × String) :=
  (ex.filter (fun e => e.value == 13)).map (fun e =>
    (⟨removeCell c.P e.row e.col, c.D, c.W⟩,
      msgRemove1 ++ formatCard e.card ++ msgRemove2 ++ coordStr e.row e.col))

/-- Move generation step 1b: Go's `i < j` double loop over the sorted exposed
list, keeping pairs whose values sum to 13 (same enumeration order). -/
def pairMovesC (c : Core) : List ExposedCard → List (Core × String)
  | [] => []
  | e :: rest =>
    (rest.filterMap (fun f =>
      if e.value + f.value == 13 then
        some (⟨removeCell (removeCell c.P e.row e.col) f.row f.col, c.D, c.W⟩,
          msgPair1 ++ formatCard e.card ++ msgAt ++ coordStr e.row e.col ++
            msgAnd ++ formatCard f.card ++ msgAt ++ coordStr f.row f.col)
      else none)) ++ pairMovesC c rest

/-- Move generation step 2: pair the top waste card with an exposed card. -/
def wasteMovesC (c : Core) (ex : List ExposedCard) : List (Core × String) :=
  match c.W.getLast? with
  | none => []
  | some topWaste =>
    ex.filterMap (fun e =>
      if cardValueD topWaste + e.value == 13 then
        some (⟨removeCell c.P e.row e.col, c.D, c.W.dropLast⟩,
          msgWaste1 ++ formatCard topWaste ++ msgWaste2 ++ formatCard e.card ++
            msgAt ++ coordStr e.row e.col)
      else none)

/-- Move generation step 3: draw the front deck card; a drawn King is simply
discarded, any other card is appended to the waste. -/
def drawMovesC (c : Core) : List (Core × String) :=
  match c.D with
  | [] => []
  | drawn :: rest =>
    if cardValueD drawn == 13 then
      [(⟨c.P, rest, c.W⟩, msgDrawKing ++ formatCard drawn)]
    else
      [(⟨c.P, rest, c.W ++ [drawn]⟩, msgDraw ++ formatCard drawn)]

/-- Move generation step 4: recycle the waste (reversed) into a new deck when
the deck is empty and the waste is not. -/
def recycleMovesC (c : Core) : List (Core × String) :=
  if c.D.isEmpty && !c.W.isEmpty then [(⟨c.P, c.W.reverse, []⟩, msgRecycle)]
  else []

/-- All children of a core in the exact order `solveState` explores them,
paired with the move-log message each one appends. -/
def childrenC (c : Core) : List (Core × String) :=
  let ex := sortExposed (getExposedCards c.P)
  kingMovesC c ex ++ pairMovesC c ex ++ wasteMovesC c ex ++ drawMovesC c ++ recycleMovesC c

/-- The child `GameState`s explored from `s`, in order; each appends its move
message to the log (Go clones the state and appends to `Moves`). -/
def children (s : GameState) : List GameState :=
  (childrenC (coreOf s)).map (fun pr => ⟨pr.1.P, pr.1.D, pr.1.W, s.Moves ++ [pr.2]⟩)

/-- The Go `map[string]int` visited table as an association list: lookup finds
the most recent binding, insertion conses (observably the map's overwrite). -/
abbrev Visited := List (String × Nat)

def vLookup : Visited → String → Option Nat
  | [], _ => none
  | (k, n) :: rest, key => if k = key then some n else vLookup rest key

/-- The per-child loop body of `solveState`: solve the child, keep the better
result, and short-circuit every remaining sibling once 28 is reached. -/
def runFold (solve : GameState → Visited → Option (Result × Visited)) :
    List GameState → Result → Visited → Option (Result × Visited)
  | [], best, v => some (best, v)
  | c :: cs, best, v =>
    match solve c v with
    | none => none
    | some (res, v1) =>
      let best1 := if best.RemovedCount < res.RemovedCount then res else best
      if best1.RemovedCount == 28 then some (best1, v1)
      else runFold solve cs best1 v1

/-- Embedding of Go `solveState`, indexed by fuel (`none` = fuel exhausted;
the Go recursion carries no fuel, and its termination is proved as existence
of sufficient fuel).  The body mirrors the source: return on an empty pyramid,
prune when the state was already visited with at least as many removals,
otherwise record the state and fold over the children in order. -/
def solveStateF : Nat → GameState → Visited → Option (Result × Visited)
  | 0, _, _ => none
  | fuel + 1, state, visited =>
    let curRemoved := countRemoved state.Pyramid
    let bestResult : Result := ⟨state.Moves, curRemoved⟩
    if isPyramidEmpty state.Pyramid then some (bestResult, visited)
    else
      let key := serializeState state
      match vLookup visited key with
      | some val =>
        if curRemoved ≤ val then some (bestResult, visited)
        else runFold (solveStateF fuel) (children state) bestResult ((key, curRemoved) :: visited)
      | none =>
        runFold (solveStateF fuel) (children state) bestResult ((key, curRemoved) :: visited)

/-- The per-child loop body with the pruning removed. -/
def runFoldNP (solve : GameState → Result) : List GameState → Result → Result
  | [], best => best
  | c :: cs, best =>
    let res := solve c
    let best1 := if best.RemovedCount < res.RemovedCount then res else best
    if best1.RemovedCount == 28 then best1 else runFoldNP solve cs best1

/-- `solveState` with the visited-table pruning (spec step 4.2.3) removed:
no key, no table.  At fuel 0 the current best is returned, so `solveNoPruneF
fuel` is the best result over all explored move sequences shorter than
`fuel`; the unpruned search never terminates on its own (draw/recycle cycles),
so it is compared against the pruned search at every fuel. -/
def solveNoPruneF : Nat → GameState → Result
  | 0, state => ⟨state.Moves, countRemoved state.Pyramid⟩
  | fuel + 1, state =>
    let bestResult : Result := ⟨state.Moves, countRemoved state.Pyramid⟩
    if isPyramidEmpty state.Pyramid then bestResult
    else runFoldNP (solveNoPruneF fuel) (children state) bestResult

/-- The initial state of `solvePyramidSolitaire`: first 28 cards form the
pyramid, the rest the deck, empty waste and log. -/
def initialState (cards : List String) : GameState :=
  ⟨buildPyramid cards, cards.drop 28, [], []⟩

/-- Embedding of Go `solvePyramidSolitaire`, fuel-indexed like `solveStateF`. -/
def solvePyramidSolitaireF (fuel : Nat) (cards : List String) : Option Result :=
  (solveStateF fuel (initialState cards) []).map Prod.fst

/-- A card token that serializes unambiguously: non-empty, not the removed
sentinel, and free of the three separator characters. -/
def ValidTok (t : String) : Prop :=
  t ≠ emptyStr ∧ t ≠ xxStr ∧ ∀ ch ∈ t.data, ch ≠ ',' ∧ ch ≠ ';' ∧ ch ≠ '|'

/-- The 7-row triangular pyramid shape. -/
def PyrShape (p : List (List String)) : Prop :=
  p.length = 7 ∧ ∀ r, r < 7 → (p.getD r []).length = r + 1

/-- Invariant of every core reachable from a valid 52-card deal whose card
list is `T`: triangular shape, cells empty or cards of `T`, deck and waste
cards from `T` with at most 24 cards between them. -/
def InvCore (T : List String) (c : Core) : Prop :=
  PyrShape c.P ∧
  (∀ row ∈ c.P, ∀ cell ∈ row, cell = emptyStr ∨ cell ∈ T) ∧
  (∀ x ∈ c.D, x ∈ T) ∧ (∀ x ∈ c.W, x ∈ T) ∧
  c.D.length + c.W.length ≤ 24

/-- All tokens of a card list serialize unambiguously. -/
def TokensOK (T : List String) : Prop := ∀ t ∈ T, ValidTok t

/-- One solver transition between cores (some generated move leads from `a`
to `b`). -/
def StepC (a b : Core) : Prop := b ∈ (childrenC a).map Prod.fst

/-- One solver transition between full states. -/
def StepG (a b : GameState) : Prop := b ∈ children a

/-- Reachability along solver moves (full states, move log included). -/
def ReachG : GameState → GameState → Prop := Relation.ReflTransGen StepG

/-- Reachability between cores along paths whose intermediate and final
states all have keys outside `S` (the start state is exempt).  `ReachAvoid ∅`
is plain reachability. -/
inductive ReachAvoid (S : Set String) : Core → Core → Prop
  | refl (a : Core) : ReachAvoid S a a
  | head {a b c : Core} : StepC a b → serializeCore b ∉ S →
      ReachAvoid S b c → ReachAvoid S a c

/-- Occupied-and-exposed pyramid position, exactly the condition
`getExposedCards` checks. -/
def Exposed (p : List (List String)) (r c : Nat) : Prop :=
  cellD p r c ≠ emptyStr ∧
    (r = p.length - 1 ∨ (cellD p (r + 1) c = emptyStr ∧ cellD p (r + 1) (c + 1) = emptyStr))

/-- Legality of one replayed move, as the spec states it: every removal hits
an occupied exposed slot, pyramid pairs and waste pairings sum to 13, a drawn
King is discarded, a drawn non-King goes to the waste, recycling reverses the
waste into the deck; each move appends exactly its log message. -/
def MoveLegal (s c : GameState) : Prop :=
  (∃ r k, Exposed s.Pyramid r k ∧ cardValueD (cellD s.Pyramid r k) = 13 ∧
    c.Pyramid = removeCell s.Pyramid r k ∧ c.Deck = s.Deck ∧ c.Waste = s.Waste ∧
    c.Moves = s.Moves ++
      [msgRemove1 ++ formatCard (cellD s.Pyramid r k) ++ msgRemove2 ++ coordStr r k]) ∨
  (∃ r1 k1 r2 k2, Exposed s.Pyramid r1 k1 ∧ Exposed s.Pyramid r2 k2 ∧
    (r1 ≠ r2 ∨ k1 ≠ k2) ∧
    cardValueD (cellD s.Pyramid r1 k1) + cardValueD (cellD s.Pyramid r2 k2) = 13 ∧
    c.Pyramid = removeCell (removeCell s.Pyramid r1 k1) r2 k2 ∧
    c.Deck = s.Deck ∧ c.Waste = s.Waste ∧
    c.Moves = s.Moves ++
      [msgPair1 ++ formatCard (cellD s.Pyramid r1 k1) ++ msgAt ++ coordStr r1 k1 ++
        msgAnd ++ formatCard (cellD s.Pyramid r2 k2) ++ msgAt ++ coordStr r2 k2]) ∨
  (∃ top r k, s.Waste.getLast? = some top ∧ Exposed s.Pyramid r k ∧
    cardValueD top + cardValueD (cellD s.Pyramid r k) = 13 ∧
    c.Pyramid = removeCell s.Pyramid r k ∧ c.Deck = s.Deck ∧ c.Waste = s.Waste.dropLast ∧
    c.Moves = s.Moves ++
      [msgWaste1 ++ formatCard top ++ msgWaste2 ++ formatCard (cellD s.Pyramid r k) ++
        msgAt ++ coordStr r k]) ∨
  (∃ d rest, s.Deck = d :: rest ∧ cardValueD d = 13 ∧
    c.Pyramid = s.Pyramid ∧ c.Deck = rest ∧ c.Waste = s.Waste ∧
    c.Moves = s.Moves ++ [msgDrawKing ++ formatCard d]) ∨
  (∃ d rest, s.Deck = d :: rest ∧ cardValueD d ≠ 13 ∧
    c.Pyramid = s.Pyramid ∧ c.Deck = rest ∧ c.Waste = s.Waste ++ [d] ∧
    c.Moves = s.Moves ++ [msgDraw ++ formatCard d]) ∨
  (s.Deck = [] ∧ s.Waste ≠ [] ∧
    c.Pyramid = s.Pyramid ∧ c.Deck = s.Waste.reverse ∧ c.Waste = [] ∧
    c.Moves = s.Moves ++ [msgRecycle])

/-- The keys stored in a visited table. -/
def vKeys (v : Visited) : List String := v.map Prod.fst

/-- Invariant of the visited table: distinct keys, each binding recording the
removal count of some valid core with that key. -/
def InvV (T : List String) (v : Visited) : Prop :=
  (vKeys v).Nodup ∧
  ∀ e ∈ v, ∃ core : Core, InvCore T core ∧ e.1 = serializeCore core ∧ e.2 = countRemoved core.P

/-- All keys of valid cores over the card list `T` (a finite set). -/
def KeySpace (T : List String) : Set String :=
  {k | ∃ c : Core, InvCore T c ∧ k = serializeCore c}

/-- Soundness bookkeeping for the pruning proof: every fully processed state
recorded in the table (key outside the in-progress set `S`) can reach, along
`S`-avoiding paths, only removal counts that some already-propagated result
`b` dominates. -/
def Covered (T : List String) (v : Visited) (S : Set String) (b : Nat) : Prop :=
  ∀ t u : Core, InvCore T t → serializeCore t ∈ vKeys v → serializeCore t ∉ S →
    ReachAvoid S t u → countRemoved u.P ≤ b

/-- Token validity of a full state as needed for key injectivity: rows
non-empty, cells empty or valid tokens, deck and waste tokens valid. -/
def StateTokensOK (s : GameState) : Prop :=
  (∀ row ∈ s.Pyramid, row ≠ [] ∧ ∀ cell ∈ row, cell = emptyStr ∨ ValidTok cell) ∧
  (∀ x ∈ s.Deck, ValidTok x) ∧ (∀ x ∈ s.Waste, ValidTok x)

/-- The same token validity on a core. -/
def CoreTokensOK (c : Core) : Prop :=
  (∀ row ∈ c.P, row ≠ [] ∧ ∀ cell ∈ row, cell = emptyStr ∨ ValidTok cell) ∧
  (∀ x ∈ c.D, ValidTok x) ∧ (∀ x ∈ c.W, ValidTok x)

/-- A fixed valid 52-card deal used to witness the top-level theorems: the
pyramid rows pair internally (a/q, 2/j, 3/10, 4/9, 5/8, 6/7 with one King on
each odd row), so the search clears all 28 cards immediately. -/
def wDeck : List String :=
  [ "ks", "6c", "7c", "kh", "5c", "8c", "4c", "9c", "4d", "9d", "kd", "3c", "10c", "3d", "10d",
    "2c", "jc", "2d", "jd", "2h", "jh", "kc", "ac", "qc", "ad", "qd", "ah", "qh",
    "as", "qs", "2s", "js", "3h", "3s", "10h", "10s", "4h", "4s", "9h", "9s",
    "5d", "5h", "5s", "8d", "8h", "8s", "6d", "6h", "6s", "7d", "7h", "7s"]

/-! ## Basic lemmas about the game-state model -/

lemma mem_insertByRow {e f : ExposedCard} {l : List ExposedCard} :
    e ∈ insertByRow f l ↔ e = f ∨ e ∈ l := by
  induction l with
  | nil => simp [insertByRow]
  | cons g rest ih =>
    by_cases h : f.row < g.row
    · simp only [insertByRow, if_pos h, List.mem_cons, ih]
      tauto
    · simp only [insertByRow, if_neg h, List.mem_cons]

lemma mem_sortExposed {e : ExposedCard} {l : List ExposedCard} :
    e ∈ sortExposed l ↔ e ∈ l := by
  induction l with
  | nil => simp [sortExposed]
  | cons f rest ih => simp [sortExposed, mem_insertByRow, ih]

lemma mem_getExposedCards {p : List (List String)} {e : ExposedCard} :
    e ∈ getExposedCards p ↔
      e.row < p.length ∧ e.col < (p.getD e.row []).length ∧ Exposed p e.row e.col ∧
        e.card = cellD p e.row e.col ∧ e.value = cardValueD (cellD p e.row e.col) := by
  constructor
  · intro h
    simp only [getExposedCards] at h
    rw [List.mem_flatten] at h
    obtain ⟨l, hl, hel⟩ := h
    rw [List.mem_map] at hl
    obtain ⟨r, hrr, rfl⟩ := hl
    rw [List.mem_range] at hrr
    rw [List.mem_filterMap] at hel
    obtain ⟨c, hcc, hif⟩ := hel
    rw [List.mem_range] at hcc
    rw [ite_eq_iff] at hif
    rcases hif with ⟨hcond, heq⟩ | ⟨_, heq⟩
    · injection heq with heq
      subst heq
      exact ⟨hrr, hcc, hcond, rfl, rfl⟩
    · exact absurd heq (by simp)
  · intro ⟨hr, hc, hcond, hcard, hval⟩
    simp only [getExposedCards]
    rw [List.mem_flatten]
    refine ⟨_, List.mem_map.mpr ⟨e.row, List.mem_range.mpr hr, rfl⟩, ?_⟩
    rw [List.mem_filterMap]
    refine ⟨e.col, List.mem_range.mpr hc, ?_⟩
    unfold Exposed at hcond
    rw [if_pos hcond, ← hval, ← hcard]

/-! ## C4: a drawn King is discarded outright -/

/-- C4 (confirmed): when the deck front is a King (value 13), the draw
transition pops it from the deck, never appends it to the waste, leaves the
pyramid unchanged, and hence does not change the pyramid removed count. -/
theorem drawKing_discards (c : Core) (d : String) (rest : List String)
    (hD : c.D = d :: rest) (hK : cardValueD d = 13) :
    drawMovesC c = [(⟨c.P, rest, c.W⟩, msgDrawKing ++ formatCard d)] ∧
    ∀ pr ∈ drawMovesC c, pr.1.D = rest ∧ pr.1.W = c.W ∧ pr.1.P = c.P ∧
      countRemoved pr.1.P = countRemoved c.P := by
  have h1 : drawMovesC c = [(⟨c.P, rest, c.W⟩, msgDrawKing ++ formatCard d)] := by
    simp [drawMovesC, hD, hK]
  refine ⟨h1, ?_⟩
  intro pr hpr
  rw [h1] at hpr
  simp only [List.mem_singleton] at hpr
  subst hpr
  exact ⟨rfl, rfl, rfl, rfl⟩

/-- Witness for C4 at a concrete state with a King on top of the deck. -/
theorem drawKing_discards_witness :
    (Core.D ⟨[[emptyStr]], [String.mk ['k', 'h'], String.mk ['2', 'c']], []⟩ =
        String.mk ['k', 'h'] :: [String.mk ['2', 'c']]) ∧
      cardValueD (String.mk ['k', 'h']) = 13 ∧
      (drawMovesC ⟨[[emptyStr]], [String.mk ['k', 'h'], String.mk ['2', 'c']], []⟩ =
        [(⟨[[emptyStr]], [String.mk ['2', 'c']], []⟩,
          msgDrawKing ++ formatCard (String.mk ['k', 'h']))] ∧
      ∀ pr ∈ drawMovesC ⟨[[emptyStr]], [String.mk ['k', 'h'], String.mk ['2', 'c']], []⟩,
        pr.1.D = [String.mk ['2', 'c']] ∧ pr.1.W = ([] : List String) ∧
          pr.1.P = [[emptyStr]] ∧ countRemoved pr.1.P = countRemoved [[emptyStr]]) :=
  ⟨rfl, by decide, drawKing_discards _ _ _ rfl (by decide)⟩

/-! ## C5: recycling reverses the waste into the deck -/

/-- C5 (confirmed): the recycle move is generated exactly when the deck is
empty and the waste is not; the child deck is the reversed waste and the child
waste is empty, so the FIFO draw-out sequence of the recycled deck is the
original waste read newest-first, and reversing it again recovers the
original waste (reverse of reverse is the identity). -/
theorem recycle_reverses (c : Core) :
    (recycleMovesC c ≠ [] ↔ c.D = [] ∧ c.W ≠ []) ∧
    (c.D = [] → c.W ≠ [] → recycleMovesC c = [(⟨c.P, c.W.reverse, []⟩, msgRecycle)]) ∧
    (∀ pr ∈ recycleMovesC c, pr.1.P = c.P ∧ pr.1.D = c.W.reverse ∧ pr.1.W = [] ∧
      pr.1.D.reverse = c.W) := by
  refine ⟨?_, ?_, ?_⟩
  · by_cases hD : c.D = [] <;> by_cases hW : c.W = [] <;>
      simp [recycleMovesC, hD, hW, List.isEmpty_iff]
  · intro hD hW
    simp [recycleMovesC, hD, List.isEmpty_iff, hW]
  · intro pr hpr
    by_cases hD : c.D = [] <;> by_cases hW : c.W = [] <;>
      simp [recycleMovesC, hD, hW, List.isEmpty_iff] at hpr
    subst hpr
    exact ⟨rfl, rfl, rfl, List.reverse_reverse _⟩

/-- Witness for C5 at a concrete state with empty deck and two waste cards. -/
theorem recycle_reverses_witness :
    ((recycleMovesC ⟨[], [], [String.mk ['2', 'c'], String.mk ['3', 'c']]⟩ ≠ [] ↔
        ([] : List String) = [] ∧ [String.mk ['2', 'c'], String.mk ['3', 'c']] ≠ []) ∧
      (([] : List String) = [] → [String.mk ['2', 'c'], String.mk ['3', 'c']] ≠ [] →
        recycleMovesC ⟨[], [], [String.mk ['2', 'c'], String.mk ['3', 'c']]⟩ =
          [(⟨[], [String.mk ['3', 'c'], String.mk ['2', 'c']], []⟩, msgRecycle)]) ∧
      (∀ pr ∈ recycleMovesC ⟨[], [], [String.mk ['2', 'c'], String.mk ['3', 'c']]⟩,
        pr.1.P = ([] : List (List String)) ∧
          pr.1.D = [String.mk ['3', 'c'], String.mk ['2', 'c']] ∧ pr.1.W = [] ∧
          pr.1.D.reverse = [String.mk ['2', 'c'], String.mk ['3', 'c']])) :=
  recycle_reverses ⟨[], [], [String.mk ['2', 'c'], String.mk ['3', 'c']]⟩

/-! ## C7 / C10: `getCardValue` -/

lemma prefixTen_false_of_ne_one (r : Char) (cs : List Char) (h : r ≠ '1') :
    goHasPrefix (String.mk (r :: cs)) ten = false := by
  have h1 : ('1' == r) = false := beq_eq_false_iff_ne.mpr (fun he => h he.symm)
  simp [goHasPrefix, ten, List.isPrefixOf, h1]

lemma getCardValue_not_ten (r : Char) (cs : List Char)
    (h : goHasPrefix (String.mk (r :: cs)) ten = false) :
    getCardValue (String.mk (r :: cs)) = some (rankValue r.toLower) := by
  simp [getCardValue, h]

lemma getCardValue_of_toLower (r : Char) (cs : List Char) (x : Char)
    (hx : r.toLower = x) (hx1 : x ≠ '1') :
    getCardValue (String.mk (r :: cs)) = some (rankValue x) := by
  have hr1 : r ≠ '1' := by
    intro he
    rw [he] at hx
    have h1l : ('1').toLower = '1' := by decide
    rw [h1l] at hx
    exact hx1 hx.symm
  rw [getCardValue_not_ten r cs (prefixTen_false_of_ne_one r cs hr1), hx]

lemma rankValue_eq_zero (x : Char)
    (h : x ∉ ([ 'a', '2', '3', '4', '5', '6', '7', '8', '9', 'j', 'q', 'k'] : List Char)) :
    rankValue x = 0 := by
  simp only [List.mem_cons, List.not_mem_nil, or_false, not_or] at h
  obtain ⟨h1, h2, h3, h4, h5, h6, h7, h8, h9, h10, h11, h12⟩ := h
  simp [rankValue, h1, h2, h3, h4, h5, h6, h7, h8, h9, h10, h11, h12]

/-- C7 counterexample: the claim says every malformed input yields value 0
without raising any error, but on the (malformed) empty string Go evaluates
`card[0]`, an out-of-range index that panics — modelled as `none`, which in
particular is not the no-error value 0. -/
theorem getCardValue_claim_counterexample :
    getCardValue emptyStr = none ∧ getCardValue emptyStr ≠ some 0 := by
  constructor
  · decide
  · decide

/-- C7 as amended (proved): `getCardValue` maps every well-formed token,
case-insensitively, to its rank value (Ace 1, numeric ranks themselves,
Jack 11, Queen 12, King 13), and every *non-empty* malformed input yields
value 0 without error; only the empty string panics. -/
theorem getCardValue_rank_map :
    (∀ r s_ : Char, r.toLower = 'a' → getCardValue (String.mk [r, s_]) = some 1) ∧
    (∀ r s_ : Char, r.toLower = '2' → getCardValue (String.mk [r, s_]) = some 2) ∧
    (∀ r s_ : Char, r.toLower = '3' → getCardValue (String.mk [r, s_]) = some 3) ∧
    (∀ r s_ : Char, r.toLower = '4' → getCardValue (String.mk [r, s_]) = some 4) ∧
    (∀ r s_ : Char, r.toLower = '5' → getCardValue (String.mk [r, s_]) = some 5) ∧
    (∀ r s_ : Char, r.toLower = '6' → getCardValue (String.mk [r, s_]) = some 6) ∧
    (∀ r s_ : Char, r.toLower = '7' → getCardValue (String.mk [r, s_]) = some 7) ∧
    (∀ r s_ : Char, r.toLower = '8' → getCardValue (String.mk [r, s_]) = some 8) ∧
    (∀ r s_ : Char, r.toLower = '9' → getCardValue (String.mk [r, s_]) = some 9) ∧
    (∀ s_ : Char, getCardValue (String.mk ['1', '0', s_]) = some 10) ∧
    (∀ r s_ : Char, r.toLower = 'j' → getCardValue (String.mk [r, s_]) = some 11) ∧
    (∀ r s_ : Char, r.toLower = 'q' → getCardValue (String.mk [r, s_]) = some 12) ∧
    (∀ r s_ : Char, r.toLower = 'k' → getCardValue (String.mk [r, s_]) = some 13) ∧
    (∀ (r : Char) (cs : List Char), goHasPrefix (String.mk (r :: cs)) ten = false →
      r.toLower ∉ ([ 'a', '2', '3', '4', '5', '6', '7', '8', '9', 'j', 'q', 'k'] : List Char) →
      getCardValue (String.mk (r :: cs)) = some 0) := by
  refine ⟨?_, ?_, ?_, ?_, ?_, ?_, ?_, ?_, ?_, ?_, ?_, ?_, ?_, ?_⟩
  · exact fun r s_ h => (getCardValue_of_toLower r [s_] _ h (by decide)).trans (by decide)
  · exact fun r s_ h => (getCardValue_of_toLower r [s_] _ h (by decide)).trans (by decide)
  · exact fun r s_ h => (getCardValue_of_toLower r [s_] _ h (by decide)).trans (by decide)
  · exact fun r s_ h => (getCardValue_of_toLower r [s_] _ h (by decide)).trans (by decide)
  · exact fun r s_ h => (getCardValue_of_toLower r [s_] _ h (by decide)).trans (by decide)
  · exact fun r s_ h => (getCardValue_of_toLower r [s_] _ h (by decide)).trans (by decide)
  · exact fun r s_ h => (getCardValue_of_toLower r [s_] _ h (by decide)).trans (by decide)
  · exact fun r s_ h => (getCardValue_of_toLower r [s_] _ h (by decide)).trans (by decide)
  · exact fun r s_ h => (getCardValue_of_toLower r [s_] _ h (by decide)).trans (by decide)
  · intro s_
    simp [getCardValue, goHasPrefix, ten, List.isPrefixOf]
  · exact fun r s_ h => (getCardValue_of_toLower r [s_] _ h (by decide)).trans (by decide)
  · exact fun r s_ h => (getCardValue_of_toLower r [s_] _ h (by decide)).trans (by decide)
  · exact fun r s_ h => (getCardValue_of_toLower r [s_] _ h (by decide)).trans (by decide)
  · intro r cs hpre hmem
    rw [getCardValue_not_ten r cs hpre, rankValue_eq_zero r.toLower hmem]

/-- Witness for the amended C7: `"As"` is an Ace, `"Kh"` a King, `"10d"` a
ten, and the non-empty malformed token `"zz"` yields 0 without error. -/
theorem getCardValue_rank_map_witness :
    getCardValue (String.mk ['A', 's']) = some 1 ∧
    getCardValue (String.mk ['K', 'h']) = some 13 ∧
    getCardValue (String.mk ['1', '0', 'd']) = some 10 ∧
    getCardValue (String.mk ['z', 'z']) = some 0 :=
  ⟨getCardValue_rank_map.1 'A' 's' (by decide),
   getCardValue_rank_map.2.2.2.2.2.2.2.2.2.2.2.2.1 'K' 'h' (by decide),
   getCardValue_rank_map.2.2.2.2.2.2.2.2.2.1 'd',
   getCardValue_rank_map.2.2.2.2.2.2.2.2.2.2.2.2.2 'z' ['z'] (by decide) (by decide)⟩

/-- C10 (confirmed): the total embedding's error branch (Go's index panic on
`card[0]`) is reached exactly by the empty string: `getCardValue` is `none`
on `""` and defined (`isSome`) on every non-empty string. -/
theorem getCardValue_empty_unsafe :
    getCardValue emptyStr = none ∧
    ∀ card : String, card ≠ emptyStr → (getCardValue card).isSome = true := by
  constructor
  · decide
  · intro card h
    obtain ⟨l⟩ := card
    cases l with
    | nil => exact absurd (by decide) h
    | cons c cs =>
      by_cases hp : goHasPrefix (String.mk (c :: cs)) ten = true
      · simp [getCardValue, hp]
      · simp only [Bool.not_eq_true] at hp
        rw [getCardValue_not_ten c cs hp]
        rfl

/-- Witness for C10 on the non-empty string `"zz"`. -/
theorem getCardValue_empty_unsafe_witness :
    String.mk ['z', 'z'] ≠ emptyStr ∧ (getCardValue (String.mk ['z', 'z'])).isSome = true :=
  ⟨by decide, getCardValue_empty_unsafe.2 (String.mk ['z', 'z']) (by decide)⟩

/-! ## C8: pyramid removal contract -/

/-- C8 counterexample: removing at an in-bounds but already-empty slot does
*not* fail — the source has no emptiness check and silently rewrites the slot
(here the singleton pyramid with an already-removed card). -/
theorem removeAt_empty_slot_silent :
    removeCardAt [[emptyStr]] 0 0 = some [[emptyStr]] ∧ cellD [[emptyStr]] 0 0 = emptyStr := by
  constructor
  · decide
  · decide

/-- C8 as amended (proved): the inline removal panics (fails) exactly on
out-of-bounds positions; an in-bounds removal always succeeds silently, even
on an empty slot; but `solveState` only removes positions reported by
`getExposedCards`, and those are always in bounds and occupied. -/
theorem removeAt_bounds_spec :
    (∀ (p : List (List String)) (r c : Nat),
      removeCardAt p r c = none ↔ ¬ (r < p.length ∧ c < (p.getD r []).length)) ∧
    (∀ (p : List (List String)) (r c : Nat), r < p.length → c < (p.getD r []).length →
      removeCardAt p r c = some (removeCell p r c)) ∧
    (∀ (p : List (List String)) (e : ExposedCard), e ∈ getExposedCards p →
      cellD p e.row e.col ≠ emptyStr ∧ e.row < p.length ∧ e.col < (p.getD e.row []).length) := by
  refine ⟨?_, ?_, ?_⟩
  · intro p r c
    by_cases h : r < p.length ∧ c < (p.getD r []).length <;> simp [removeCardAt, h]
  · intro p r c h1 h2
    unfold removeCardAt
    rw [if_pos ⟨h1, h2⟩]
  · intro p e he
    rw [mem_getExposedCards] at he
    exact ⟨he.2.2.1.1, he.1, he.2.1⟩

/-- Witness for the amended C8 on a concrete two-row pyramid. -/
theorem removeAt_bounds_spec_witness :
    (removeCardAt [[String.mk ['a', 's']]] 1 0 = none ↔
      ¬ (1 < ([[String.mk ['a', 's']]] : List (List String)).length ∧
        0 < (([[String.mk ['a', 's']]] : List (List String)).getD 1 []).length)) ∧
    removeCardAt [[String.mk ['a', 's']]] 0 0 =
      some (removeCell [[String.mk ['a', 's']]] 0 0) :=
  ⟨removeAt_bounds_spec.1 [[String.mk ['a', 's']]] 1 0,
   removeAt_bounds_spec.2.1 [[String.mk ['a', 's']]] 0 0 (by decide) (by decide)⟩

/-! ## C9: `checkDeck` characterization -/

lemma comboCheck_eq_none_iff (counts : String → Nat) (l : List String) :
    comboCheck counts l = none ↔ ∀ c ∈ l, counts c = 1 := by
  induction l with
  | nil => simp [comboCheck]
  | cons card rest ih =>
    by_cases h0 : counts card = 0
    · simp only [comboCheck, if_pos h0]
      simp only [List.mem_cons]
      constructor
      · intro h
        exact absurd h (by simp)
      · intro h
        have := h card (Or.inl rfl)
        omega
    · by_cases h1 : 1 < counts card
      · simp only [comboCheck, if_neg h0, if_pos h1, List.mem_cons]
        constructor
        · intro h
          exact absurd h (by simp)
        · intro h
          have := h card (Or.inl rfl)
          omega
      · have hone : counts card = 1 := by omega
        simp only [comboCheck, if_neg h0, if_neg h1, List.mem_cons, ih]
        constructor
        · intro h x hx
          rcases hx with rfl | hx
          · exact hone
          · exact h x hx
        · intro h x hx
          exact h x (Or.inr hx)

/-- C9 (confirmed): `checkDeck` returns `nil` iff the input has exactly 52
entries and, after lower-casing, each of the 52 rank-suit combinations
appears exactly once; otherwise it reports wrong length, a missing card, or
a duplicate. -/
theorem checkDeck_none_iff (cards : List String) :
    checkDeck cards = none ↔
      cards.length = 52 ∧ ∀ c ∈ combos, (cards.map goToLower).count c = 1 := by
  by_cases hl : cards.length = 52
  · simp only [checkDeck, hl]
    simp [comboCheck_eq_none_iff]
  · simp [checkDeck, hl]

/-- Witness for C9: the concrete deal `wDeck` passes `checkDeck`, so it has
52 cards covering every combination exactly once. -/
theorem checkDeck_none_iff_witness :
    wDeck.length = 52 ∧ ∀ c ∈ combos, (wDeck.map goToLower).count c = 1 :=
  (checkDeck_none_iff wDeck).mp (by decide)

/-! ## C6: the serialization key -/

lemma strData_append (s t : String) : (s ++ t).data = s.data ++ t.data := rfl

lemma emptyStr_data : emptyStr.data = [] := rfl

lemma mk_data (l : List Char) : (String.mk l).data = l := rfl

lemma strData_inj {s t : String} (h : s.data = t.data) : s = t := by
  cases s
  cases t
  exact congrArg String.mk h

lemma append_sep_inj {ch : Char} :
    ∀ (l l' r r' : List Char), ch ∉ l → ch ∉ l' →
      l ++ ch :: r = l' ++ ch :: r' → l = l' ∧ r = r' := by
  intro l
  induction l with
  | nil =>
    intro l' r r' _ hl' heq
    cases l' with
    | nil => simpa using heq
    | cons y ys =>
      simp only [List.nil_append, List.cons_append, List.cons.injEq] at heq
      obtain ⟨h1, _⟩ := heq
      subst h1
      exact absurd (List.mem_cons_self _ _) hl'
  | cons x xs ih =>
    intro l' r r' hl hl' heq
    cases l' with
    | nil =>
      simp only [List.nil_append, List.cons_append, List.cons.injEq] at heq
      obtain ⟨h1, _⟩ := heq
      subst h1
      exact absurd (List.mem_cons_self _ _) hl
    | cons y ys =>
      simp only [List.cons_append, List.cons.injEq] at heq
      obtain ⟨rfl, heq⟩ := heq
      have hxs : ch ∉ xs := fun hm => hl (List.mem_cons_of_mem _ hm)
      have hys : ch ∉ ys := fun hm => hl' (List.mem_cons_of_mem _ hm)
      obtain ⟨h1, h2⟩ := ih ys r r' hxs hys heq
      exact ⟨by rw [h1], h2⟩

lemma notMem_joinSep {ch : Char} {sep : String} (hsep : ch ∉ sep.data) :
    ∀ {parts : List String}, (∀ p ∈ parts, ch ∉ p.data) → ch ∉ (joinSep sep parts).data
  | [], _ => by simp [joinSep, emptyStr]
  | [x], h => by
    simpa [joinSep] using h x (by simp)
  | x :: y :: rest, h => by
    have hx : ch ∉ x.data := h x (by simp)
    have hrest : ch ∉ (joinSep sep (y :: rest)).data :=
      notMem_joinSep hsep (fun p hp => h p (List.mem_cons_of_mem _ hp))
    simp only [joinSep, strData_append, List.mem_append]
    rintro (⟨hm | hm⟩ | hm)
    · exact hx hm
    · exact hsep hm
    · exact hrest hm

lemma joinSep_ne_empty {sep : String} {parts : List String}
    (hne : parts ≠ []) (hp : ∀ p ∈ parts, p ≠ emptyStr) :
    joinSep sep parts ≠ emptyStr := by
  match parts, hne with
  | [x], _ => simpa [joinSep] using hp x (by simp)
  | x :: y :: rest, _ =>
    intro h
    have hdata := congrArg String.data h
    simp only [joinSep, strData_append, emptyStr_data] at hdata
    rcases List.append_eq_nil.mp hdata with ⟨h1, _⟩
    rcases List.append_eq_nil.mp h1 with ⟨h2, _⟩
    exact hp x (by simp) (strData_inj (by rw [h2, emptyStr_data]))

lemma joinSep_inj {ch : Char} :
    ∀ (xs ys : List String), (∀ x ∈ xs, x ≠ emptyStr ∧ ch ∉ x.data) →
      (∀ y ∈ ys, y ≠ emptyStr ∧ ch ∉ y.data) →
      joinSep (String.mk [ch]) xs = joinSep (String.mk [ch]) ys → xs = ys := by
  intro xs
  induction xs with
  | nil =>
    intro ys _ hys heq
    cases ys with
    | nil => rfl
    | cons y yt =>
      exfalso
      cases yt with
      | nil => exact (hys y (by simp)).1 (heq.symm.trans rfl)
      | cons z zt =>
        have hdata := congrArg String.data heq
        simp only [joinSep, strData_append, emptyStr_data, mk_data] at hdata
        rcases List.append_eq_nil.mp hdata.symm with ⟨h1, _⟩
        rcases List.append_eq_nil.mp h1 with ⟨_, hch⟩
        exact absurd hch (by simp)
  | cons x xt ih =>
    intro ys hxs hys heq
    cases ys with
    | nil =>
      exfalso
      cases xt with
      | nil => exact (hxs x (by simp)).1 heq
      | cons z zt =>
        have hdata := congrArg String.data heq
        simp only [joinSep, strData_append, emptyStr_data, mk_data] at hdata
        rcases List.append_eq_nil.mp hdata with ⟨h1, _⟩
        rcases List.append_eq_nil.mp h1 with ⟨_, hch⟩
        exact absurd hch (by simp)
    | cons y yt =>
      cases xt with
      | nil =>
        cases yt with
        | nil => simpa [joinSep] using heq
        | cons z zt =>
          exfalso
          have hdata := congrArg String.data heq
          simp only [joinSep, strData_append, mk_data] at hdata
          have hchx : ch ∈ x.data := by
            rw [hdata]
            simp
          exact (hxs x (by simp)).2 hchx
      | cons w wt =>
        cases yt with
        | nil =>
          exfalso
          have hdata := congrArg String.data heq
          simp only [joinSep, strData_append, mk_data] at hdata
          have hchy : ch ∈ y.data := by
            rw [← hdata]
            simp
          exact (hys y (by simp)).2 hchy
        | cons z zt =>
          have hd := congrArg String.data heq
          simp only [joinSep, strData_append, mk_data, List.append_assoc,
            List.singleton_append] at hd
          have hsplit := append_sep_inj x.data y.data _ _
            (hxs x (by simp)).2 (hys y (by simp)).2 hd
          have hx : x = y := strData_inj hsplit.1
          have ht : joinSep (String.mk [ch]) (w :: wt) = joinSep (String.mk [ch]) (z :: zt) :=
            strData_inj hsplit.2
          have htail := ih (z :: zt) (fun a ha => hxs a (List.mem_cons_of_mem _ ha))
            (fun a ha => hys a (List.mem_cons_of_mem _ ha)) ht
          rw [hx, htail]

lemma commaStr_mk : commaStr = String.mk [','] := rfl

lemma semiStr_mk : semiStr = String.mk [';'] := rfl

lemma barStr_data : barStr.data = ['|'] := rfl

lemma validTok_no_sep {t : String} (h : ValidTok t) :
    ',' ∉ t.data ∧ ';' ∉ t.data ∧ '|' ∉ t.data :=
  ⟨fun hm => (h.2.2 _ hm).1 rfl, fun hm => (h.2.2 _ hm).2.1 rfl,
    fun hm => (h.2.2 _ hm).2.2 rfl⟩

lemma encCell_ok {cell : String} (h : cell = emptyStr ∨ ValidTok cell) :
    encCell cell ≠ emptyStr ∧ ',' ∉ (encCell cell).data ∧ ';' ∉ (encCell cell).data ∧
      '|' ∉ (encCell cell).data := by
  rcases h with rfl | htok
  · refine ⟨by decide, by decide, by decide, by decide⟩
  · rw [encCell, if_neg htok.1]
    obtain ⟨h1, h2, h3⟩ := validTok_no_sep htok
    exact ⟨htok.1, h1, h2, h3⟩

lemma encCell_inj {a b : String} (ha : a = emptyStr ∨ ValidTok a)
    (hb : b = emptyStr ∨ ValidTok b) (h : encCell a = encCell b) : a = b := by
  rcases ha with rfl | ha <;> rcases hb with rfl | hb
  · rfl
  · rw [encCell, if_pos rfl, encCell, if_neg hb.1] at h
    exact absurd h.symm hb.2.1
  · rw [encCell, if_neg ha.1, encCell, if_pos rfl] at h
    exact absurd h ha.2.1
  · rwa [encCell, if_neg ha.1, encCell, if_neg hb.1] at h

lemma serializeRow_ok {row : List String} (hne : row ≠ [])
    (hcells : ∀ cell ∈ row, cell = emptyStr ∨ ValidTok cell) :
    serializeRow row ≠ emptyStr ∧ ';' ∉ (serializeRow row).data ∧
      '|' ∉ (serializeRow row).data := by
  refine ⟨joinSep_ne_empty (by simpa using hne) ?_, ?_, ?_⟩
  · intro p hp
    rw [List.mem_map] at hp
    obtain ⟨cell, hc, rfl⟩ := hp
    exact (encCell_ok (hcells cell hc)).1
  · refine notMem_joinSep (by decide) ?_
    intro p hp
    rw [List.mem_map] at hp
    obtain ⟨cell, hc, rfl⟩ := hp
    exact (encCell_ok (hcells cell hc)).2.2.1
  · refine notMem_joinSep (by decide) ?_
    intro p hp
    rw [List.mem_map] at hp
    obtain ⟨cell, hc, rfl⟩ := hp
    exact (encCell_ok (hcells cell hc)).2.2.2

lemma map_encCell_inj :
    ∀ (r r' : List String), (∀ cell ∈ r, cell = emptyStr ∨ ValidTok cell) →
      (∀ cell ∈ r', cell = emptyStr ∨ ValidTok cell) →
      r.map encCell = r'.map encCell → r = r' := by
  intro r
  induction r with
  | nil =>
    intro r' _ _ h
    cases r' with
    | nil => rfl
    | cons y yt => exact absurd h (by simp)
  | cons x xt ih =>
    intro r' hr hr' h
    cases r' with
    | nil => exact absurd h (by simp)
    | cons y yt =>
      simp only [List.map_cons, List.cons.injEq] at h
      have hx : x = y := encCell_inj (hr x (by simp)) (hr' y (by simp)) h.1
      have ht := ih yt (fun c hc => hr c (List.mem_cons_of_mem _ hc))
        (fun c hc => hr' c (List.mem_cons_of_mem _ hc)) h.2
      rw [hx, ht]

lemma serializeRow_inj {r r' : List String}
    (hr : ∀ cell ∈ r, cell = emptyStr ∨ ValidTok cell)
    (hr' : ∀ cell ∈ r', cell = emptyStr ∨ ValidTok cell)
    (h : serializeRow r = serializeRow r') : r = r' := by
  refine map_encCell_inj r r' hr hr' ?_
  refine joinSep_inj (r.map encCell) (r'.map encCell) ?_ ?_ (by rwa [← commaStr_mk])
  · intro x hx
    rw [List.mem_map] at hx
    obtain ⟨cell, hc, rfl⟩ := hx
    exact ⟨(encCell_ok (hr cell hc)).1, (encCell_ok (hr cell hc)).2.1⟩
  · intro x hx
    rw [List.mem_map] at hx
    obtain ⟨cell, hc, rfl⟩ := hx
    exact ⟨(encCell_ok (hr' cell hc)).1, (encCell_ok (hr' cell hc)).2.1⟩

lemma map_serializeRow_inj :
    ∀ (P P' : List (List String)),
      (∀ row ∈ P, row ≠ [] ∧ ∀ cell ∈ row, cell = emptyStr ∨ ValidTok cell) →
      (∀ row ∈ P', row ≠ [] ∧ ∀ cell ∈ row, cell = emptyStr ∨ ValidTok cell) →
      P.map serializeRow = P'.map serializeRow → P = P' := by
  intro P
  induction P with
  | nil =>
    intro P' _ _ h
    cases P' with
    | nil => rfl
    | cons y yt => exact absurd h (by simp)
  | cons x xt ih =>
    intro P' hP hP' h
    cases P' with
    | nil => exact absurd h (by simp)
    | cons y yt =>
      simp only [List.map_cons, List.cons.injEq] at h
      have hx : x = y :=
        serializeRow_inj (hP x (by simp)).2 (hP' y (by simp)).2 h.1
      have ht := ih yt (fun rr hrr => hP rr (List.mem_cons_of_mem _ hrr))
        (fun rr hrr => hP' rr (List.mem_cons_of_mem _ hrr)) h.2
      rw [hx, ht]

lemma pyrPart_no_bar {P : List (List String)}
    (hP : ∀ row ∈ P, row ≠ [] ∧ ∀ cell ∈ row, cell = emptyStr ∨ ValidTok cell) :
    '|' ∉ (joinSep semiStr (P.map serializeRow)).data := by
  refine notMem_joinSep (by decide) ?_
  intro p hp
  rw [List.mem_map] at hp
  obtain ⟨row, hrow, rfl⟩ := hp
  exact (serializeRow_ok (hP row hrow).1 (hP row hrow).2).2.2

lemma deckPart_no_bar {D : List String} (hD : ∀ x ∈ D, ValidTok x) :
    '|' ∉ (joinSep commaStr D).data := by
  refine notMem_joinSep (by decide) ?_
  intro p hp
  exact (validTok_no_sep (hD p hp)).2.2

lemma joinComma_inj {D D' : List String} (hD : ∀ x ∈ D, ValidTok x)
    (hD' : ∀ x ∈ D', ValidTok x) (h : joinSep commaStr D = joinSep commaStr D') :
    D = D' := by
  refine joinSep_inj D D' ?_ ?_ (by rwa [← commaStr_mk])
  · exact fun x hx => ⟨(hD x hx).1, (validTok_no_sep (hD x hx)).1⟩
  · exact fun x hx => ⟨(hD' x hx).1, (validTok_no_sep (hD' x hx)).1⟩

/-- Key injectivity on token-valid cores. -/
lemma serializeCore_inj_tok {c c' : Core} (h : CoreTokensOK c) (h' : CoreTokensOK c')
    (heq : serializeCore c = serializeCore c') : c = c' := by
  obtain ⟨hP, hD, hW⟩ := h
  obtain ⟨hP', hD', hW'⟩ := h'
  have hd := congrArg String.data heq
  simp only [serializeCore, strData_append, barStr_data, List.append_assoc,
    List.singleton_append] at hd
  have hsplit1 := append_sep_inj _ _ _ _ (pyrPart_no_bar hP) (pyrPart_no_bar hP') hd
  have hsplit2 := append_sep_inj _ _ _ _ (deckPart_no_bar hD) (deckPart_no_bar hD')
    hsplit1.2
  have hPs : c.P = c'.P := by
    refine map_serializeRow_inj c.P c'.P hP hP' ?_
    refine @joinSep_inj ';' _ _ ?_ ?_ ?_
    · intro x hx
      rw [List.mem_map] at hx
      obtain ⟨row, hrow, rfl⟩ := hx
      exact ⟨(serializeRow_ok (hP row hrow).1 (hP row hrow).2).1,
        (serializeRow_ok (hP row hrow).1 (hP row hrow).2).2.1⟩
    · intro x hx
      rw [List.mem_map] at hx
      obtain ⟨row, hrow, rfl⟩ := hx
      exact ⟨(serializeRow_ok (hP' row hrow).1 (hP' row hrow).2).1,
        (serializeRow_ok (hP' row hrow).1 (hP' row hrow).2).2.1⟩
    · rw [← semiStr_mk]
      exact strData_inj hsplit1.1
  have hDs : c.D = c'.D := joinComma_inj hD hD' (strData_inj hsplit2.1)
  have hWs : c.W = c'.W := joinComma_inj hW hW' (strData_inj hsplit2.2)
  cases c
  cases c'
  simp only at hPs hDs hWs
  rw [hPs, hDs, hWs]

/-- C6 (confirmed): `serializeState` never reads `Moves`, so states differing
only in their move logs share a key; and on states built from valid card
tokens it is injective in (Pyramid, Deck, Waste), so states with different
core components get different keys. -/
theorem serializeState_key :
    (∀ (P : List (List String)) (D W M M' : List String),
      serializeState ⟨P, D, W, M⟩ = serializeState ⟨P, D, W, M'⟩) ∧
    (∀ a b : GameState, StateTokensOK a → StateTokensOK b →
      serializeState a = serializeState b →
      a.Pyramid = b.Pyramid ∧ a.Deck = b.Deck ∧ a.Waste = b.Waste) ∧
    (∀ a b : GameState, StateTokensOK a → StateTokensOK b →
      (a.Pyramid ≠ b.Pyramid ∨ a.Deck ≠ b.Deck ∨ a.Waste ≠ b.Waste) →
      serializeState a ≠ serializeState b) := by
  have hmain : ∀ a b : GameState, StateTokensOK a → StateTokensOK b →
      serializeState a = serializeState b →
      a.Pyramid = b.Pyramid ∧ a.Deck = b.Deck ∧ a.Waste = b.Waste := by
    intro a b ha hb h
    have := @serializeCore_inj_tok (coreOf a) (coreOf b)
      ⟨ha.1, ha.2.1, ha.2.2⟩ ⟨hb.1, hb.2.1, hb.2.2⟩ h
    exact ⟨congrArg Core.P this, congrArg Core.D this, congrArg Core.W this⟩
  refine ⟨fun P D W M M' => rfl, hmain, ?_⟩
  intro a b ha hb hne h
  rcases hne with hne | hne | hne
  · exact hne (hmain a b ha hb h).1
  · exact hne (hmain a b ha hb h).2.1
  · exact hne (hmain a b ha hb h).2.2

/-- Witness for C6: two concrete one-card states with different move logs
share a key, and two states with different pyramids have different keys. -/
theorem serializeState_key_witness :
    serializeState ⟨[[String.mk ['a', 's']]], [], [], []⟩ =
      serializeState ⟨[[String.mk ['a', 's']]], [], [], [msgRecycle]⟩ ∧
    serializeState ⟨[[String.mk ['a', 's']]], [], [], []⟩ ≠
      serializeState ⟨[[String.mk ['k', 's']]], [], [], []⟩ :=
  ⟨serializeState_key.1 [[String.mk ['a', 's']]] [] [] [] [msgRecycle],
    serializeState_key.2.2 ⟨[[String.mk ['a', 's']]], [], [], []⟩
      ⟨[[String.mk ['k', 's']]], [], [], []⟩
      (by simp only [StateTokensOK, ValidTok]; decide)
      (by simp only [StateTokensOK, ValidTok]; decide)
      (Or.inl (by decide))⟩

/-! ## Shape and counting lemmas -/

lemma set_getD_eq {α : Type} :
    ∀ (l : List α) (i : Nat) (x d : α), i < l.length → (l.set i x).getD i d = x := by
  intro l
  induction l with
  | nil => intro i x d h; simp at h
  | cons a t ih =>
    intro i x d h
    cases i with
    | zero => rfl
    | succ j =>
      simp only [List.set_cons_succ, List.getD_cons_succ]
      exact ih j x d (by simpa using h)

lemma set_getD_ne {α : Type} :
    ∀ (l : List α) (i j : Nat) (x d : α), i ≠ j → (l.set i x).getD j d = l.getD j d := by
  intro l
  induction l with
  | nil => intro i j x d _; simp
  | cons a t ih =>
    intro i j x d hij
    cases i with
    | zero =>
      cases j with
      | zero => exact absurd rfl hij
      | succ j' => rfl
    | succ i' =>
      cases j with
      | zero => rfl
      | succ j' =>
        simp only [List.set_cons_succ, List.getD_cons_succ]
        exact ih i' j' x d (fun h => hij (by rw [h]))

lemma mem_set {α : Type} :
    ∀ (l : List α) (i : Nat) (x y : α), y ∈ l.set i x → y = x ∨ y ∈ l := by
  intro l
  induction l with
  | nil => intro i x y h; simp at h
  | cons a t ih =>
    intro i x y h
    cases i with
    | zero =>
      rcases List.mem_cons.mp h with rfl | h
      · exact Or.inl rfl
      · exact Or.inr (List.mem_cons_of_mem _ h)
    | succ j =>
      rcases List.mem_cons.mp h with rfl | h
      · exact Or.inr (List.mem_cons_self _ _)
      · rcases ih j x y h with h | h
        · exact Or.inl h
        · exact Or.inr (List.mem_cons_of_mem _ h)

lemma removeCell_shape {p : List (List String)} (hs : PyrShape p) (r c : Nat) :
    PyrShape (removeCell p r c) := by
  obtain ⟨hlen, hrow⟩ := hs
  constructor
  · rw [removeCell, List.length_set, hlen]
  · intro i hi
    by_cases hir : i = r
    · subst hir
      by_cases hr : i < p.length
      · rw [removeCell, set_getD_eq _ _ _ _ hr, List.length_set]
        exact hrow i hi
      · rw [removeCell, List.set_eq_of_length_le (by omega)]
        exact hrow i hi
    · rw [removeCell, set_getD_ne _ _ _ _ _ (fun h => hir h.symm)]
      exact hrow i hi

lemma getD_mem {α : Type} :
    ∀ (l : List α) (i : Nat) (d : α), i < l.length → l.getD i d ∈ l := by
  intro l
  induction l with
  | nil => intro i d h; simp at h
  | cons a t ih =>
    intro i d h
    cases i with
    | zero => exact List.mem_cons_self _ _
    | succ j => exact List.mem_cons_of_mem _ (ih j d (by simpa using h))

lemma removeCell_cells {T : List String} {p : List (List String)}
    (hc : ∀ row ∈ p, ∀ cell ∈ row, cell = emptyStr ∨ cell ∈ T) (r c : Nat) :
    ∀ row ∈ removeCell p r c, ∀ cell ∈ row, cell = emptyStr ∨ cell ∈ T := by
  intro row hrow cell hcell
  rcases mem_set _ _ _ _ hrow with rfl | hrow
  · rcases mem_set _ _ _ _ hcell with rfl | hcell
    · exact Or.inl rfl
    · by_cases hr : r < p.length
      · exact hc (p.getD r []) (getD_mem _ _ _ hr) cell hcell
      · rw [List.getD_eq_default _ _ (by omega)] at hcell
        simp at hcell
  · exact hc row hrow cell hcell

lemma slots_eq_28 {p : List (List String)} (hs : PyrShape p) :
    (p.map List.length).sum = 28 := by
  obtain ⟨hlen, hrow⟩ := hs
  rcases p with _ | ⟨r0, p⟩; · simp at hlen
  rcases p with _ | ⟨r1, p⟩; · simp at hlen
  rcases p with _ | ⟨r2, p⟩; · simp at hlen
  rcases p with _ | ⟨r3, p⟩; · simp at hlen
  rcases p with _ | ⟨r4, p⟩; · simp at hlen
  rcases p with _ | ⟨r5, p⟩; · simp at hlen
  rcases p with _ | ⟨r6, p⟩; · simp at hlen
  rcases p with _ | ⟨r7, p⟩
  · have h0 := hrow 0 (by omega)
    have h1 := hrow 1 (by omega)
    have h2 := hrow 2 (by omega)
    have h3 := hrow 3 (by omega)
    have h4 := hrow 4 (by omega)
    have h5 := hrow 5 (by omega)
    have h6 := hrow 6 (by omega)
    simp only [List.getD_cons_zero, List.getD_cons_succ] at h0 h1 h2 h3 h4 h5 h6
    simp [h0, h1, h2, h3, h4, h5, h6]
  · simp at hlen

lemma countRemoved_le_slots :
    ∀ p : List (List String), countRemoved p ≤ (p.map List.length).sum := by
  intro p
  induction p with
  | nil => simp [countRemoved]
  | cons row rest ih =>
    simp only [countRemoved, List.map_cons, List.sum_cons] at ih ⊢
    exact Nat.add_le_add (List.countP_le_length _) ih

lemma countRemoved_le_28 {p : List (List String)} (hs : PyrShape p) :
    countRemoved p ≤ 28 := by
  have hle := countRemoved_le_slots p
  rw [slots_eq_28 hs] at hle
  exact hle

lemma countRemoved_lt_slots {p : List (List String)} {row : List String} {a : String}
    (hrow : row ∈ p) (ha : a ∈ row) (hne : a ≠ emptyStr) :
    countRemoved p < (p.map List.length).sum := by
  induction p with
  | nil => simp at hrow
  | cons r rest ih =>
    simp only [countRemoved, List.map_cons, List.sum_cons] at ih ⊢
    rcases List.mem_cons.mp hrow with heq | hrow
    · rw [heq] at ha
      have hlt : r.countP (fun card => card == emptyStr) < r.length := by
        have hle : r.countP (fun card => card == emptyStr) ≤ r.length :=
          List.countP_le_length _
        rcases Nat.lt_or_ge (r.countP (fun card => card == emptyStr)) r.length with h | h
        · exact h
        · exfalso
          have heq : r.countP (fun card => card == emptyStr) = r.length := by omega
          rw [List.countP_eq_length] at heq
          have := heq a ha
          simp only [beq_iff_eq] at this
          exact hne this
      have := countRemoved_le_slots rest
      simp only [countRemoved] at this
      omega
    · have hle : r.countP (fun card => card == emptyStr) ≤ r.length :=
        List.countP_le_length _
      have h2 := ih hrow
      omega

lemma isPyramidEmpty_iff {p : List (List String)} (hs : PyrShape p) :
    isPyramidEmpty p = true ↔ countRemoved p = 28 := by
  constructor
  · intro h
    rw [isPyramidEmpty, List.all_eq_true] at h
    have hall : ∀ row ∈ p, row.countP (fun card => card == emptyStr) = row.length := by
      intro row hrow
      rw [List.countP_eq_length]
      intro a ha
      exact List.all_eq_true.mp (h row hrow) a ha
    calc countRemoved p = (p.map List.length).sum := by
          rw [countRemoved]
          congr 1
          exact List.map_congr_left hall
      _ = 28 := slots_eq_28 hs
  · intro h
    rw [isPyramidEmpty, List.all_eq_true]
    intro row hrow
    rw [List.all_eq_true]
    intro a ha
    by_contra hne
    simp only [beq_iff_eq] at hne
    have hsum := countRemoved_lt_slots hrow ha hne
    rw [h, slots_eq_28 hs] at hsum
    omega

/-! ## Elimination lemmas for the move generators -/

lemma mem_kingMovesC {c : Core} {ex : List ExposedCard} {pr : Core × String}
    (h : pr ∈ kingMovesC c ex) :
    ∃ e ∈ ex, e.value = 13 ∧
      pr = (⟨removeCell c.P e.row e.col, c.D, c.W⟩,
        msgRemove1 ++ formatCard e.card ++ msgRemove2 ++ coordStr e.row e.col) := by
  simp only [kingMovesC, List.mem_map, List.mem_filter, beq_iff_eq] at h
  obtain ⟨e, ⟨he, hv⟩, rfl⟩ := h
  exact ⟨e, he, hv, rfl⟩

lemma mem_pairMovesC {c : Core} :
    ∀ {l : List ExposedCard} {pr : Core × String}, pr ∈ pairMovesC c l →
      ∃ e ∈ l, ∃ f ∈ l, e.value + f.value = 13 ∧
        pr = (⟨removeCell (removeCell c.P e.row e.col) f.row f.col, c.D, c.W⟩,
          msgPair1 ++ formatCard e.card ++ msgAt ++ coordStr e.row e.col ++
            msgAnd ++ formatCard f.card ++ msgAt ++ coordStr f.row f.col) := by
  intro l
  induction l with
  | nil => intro pr h; simp [pairMovesC] at h
  | cons e rest ih =>
    intro pr h
    simp only [pairMovesC, List.mem_append, List.mem_filterMap] at h
    rcases h with ⟨f, hf, hif⟩ | h
    · rw [ite_eq_iff] at hif
      rcases hif with ⟨hv, heq⟩ | ⟨_, heq⟩
      · simp only [beq_iff_eq] at hv
        obtain rfl := Option.some_injective _ heq
        exact ⟨e, List.mem_cons_self _ _, f, List.mem_cons_of_mem _ hf, hv, rfl⟩
      · exact absurd heq (by simp)
    · obtain ⟨e1, he1, f1, hf1, hv, heq⟩ := ih h
      exact ⟨e1, List.mem_cons_of_mem _ he1, f1, List.mem_cons_of_mem _ hf1, hv, heq⟩

lemma mem_wasteMovesC {c : Core} {ex : List ExposedCard} {pr : Core × String}
    (h : pr ∈ wasteMovesC c ex) :
    ∃ top, c.W.getLast? = some top ∧ ∃ e ∈ ex, cardValueD top + e.value = 13 ∧
      pr = (⟨removeCell c.P e.row e.col, c.D, c.W.dropLast⟩,
        msgWaste1 ++ formatCard top ++ msgWaste2 ++ formatCard e.card ++
          msgAt ++ coordStr e.row e.col) := by
  rw [wasteMovesC] at h
  cases hlast : c.W.getLast? with
  | none => rw [hlast] at h; simp at h
  | some top =>
    rw [hlast] at h
    rw [List.mem_filterMap] at h
    obtain ⟨e, he, hif⟩ := h
    rw [ite_eq_iff] at hif
    rcases hif with ⟨hv, heq⟩ | ⟨_, heq⟩
    · simp only [beq_iff_eq] at hv
      obtain rfl := Option.some_injective _ heq
      exact ⟨top, rfl, e, he, hv, rfl⟩
    · exact absurd heq (by simp)

lemma mem_drawMovesC {c : Core} {pr : Core × String} (h : pr ∈ drawMovesC c) :
    ∃ d rest, c.D = d :: rest ∧
      ((cardValueD d = 13 ∧ pr = (⟨c.P, rest, c.W⟩, msgDrawKing ++ formatCard d)) ∨
        (cardValueD d ≠ 13 ∧
          pr = (⟨c.P, rest, c.W ++ [d]⟩, msgDraw ++ formatCard d))) := by
  rw [drawMovesC] at h
  cases hD : c.D with
  | nil => rw [hD] at h; simp at h
  | cons d rest =>
    rw [hD] at h
    dsimp only at h
    by_cases hv : cardValueD d = 13
    · rw [if_pos (by simpa using hv)] at h
      simp only [List.mem_singleton] at h
      exact ⟨d, rest, rfl, Or.inl ⟨hv, h⟩⟩
    · rw [if_neg (by simpa using hv)] at h
      simp only [List.mem_singleton] at h
      exact ⟨d, rest, rfl, Or.inr ⟨hv, h⟩⟩

lemma mem_recycleMovesC {c : Core} {pr : Core × String} (h : pr ∈ recycleMovesC c) :
    c.D = [] ∧ c.W ≠ [] ∧ pr = (⟨c.P, c.W.reverse, []⟩, msgRecycle) := by
  rw [recycleMovesC] at h
  by_cases hg : c.D.isEmpty && !c.W.isEmpty
  · rw [if_pos hg] at h
    simp only [List.mem_singleton] at h
    simp only [Bool.and_eq_true] at hg
    obtain ⟨hg1, hg2⟩ := hg
    have hD0 : c.D = [] := List.isEmpty_iff.mp hg1
    have hW0 : c.W ≠ [] := by
      intro h0
      rw [h0] at hg2
      simp at hg2
    exact ⟨hD0, hW0, h⟩
  · rw [if_neg hg] at h
    simp at h

/-! ## Children preserve the core invariant -/

lemma invCore_of_removeCell {T : List String} {c : Core} (h : InvCore T c)
    (P2 : List (List String)) (r k : Nat) (hP2 : P2 = removeCell c.P r k)
    (D2 W2 : List String) (hD2 : ∀ x ∈ D2, x ∈ T) (hW2 : ∀ x ∈ W2, x ∈ T)
    (hlen : D2.length + W2.length ≤ 24) : InvCore T ⟨P2, D2, W2⟩ := by
  subst hP2
  exact ⟨removeCell_shape h.1 r k, removeCell_cells h.2.1 r k, hD2, hW2, hlen⟩

lemma childrenC_invCore {T : List String} {c : Core} (h : InvCore T c)
    {pr : Core × String} (hpr : pr ∈ childrenC c) : InvCore T pr.1 := by
  obtain ⟨hshape, hcells, hD, hW, hlen⟩ := h
  simp only [childrenC, List.mem_append] at hpr
  rcases hpr with ((((hk | hp) | hw) | hd) | hr)
  · obtain ⟨e, _, _, rfl⟩ := mem_kingMovesC hk
    exact ⟨removeCell_shape hshape _ _, removeCell_cells hcells _ _, hD, hW, hlen⟩
  · obtain ⟨e, _, f, _, _, rfl⟩ := mem_pairMovesC hp
    exact ⟨removeCell_shape (removeCell_shape hshape _ _) _ _,
      removeCell_cells (removeCell_cells hcells _ _) _ _, hD, hW, by
        simpa using hlen⟩
  · obtain ⟨top, _, e, _, _, rfl⟩ := mem_wasteMovesC hw
    refine ⟨removeCell_shape hshape _ _, removeCell_cells hcells _ _, hD, ?_, ?_⟩
    · exact fun x hx => hW x (List.dropLast_subset _ hx)
    · dsimp only
      rw [List.length_dropLast]
      omega
  · obtain ⟨d, rest, hDeq, hcase⟩ := mem_drawMovesC hd
    have hdT : d ∈ T := hD d (by rw [hDeq]; exact List.mem_cons_self _ _)
    have hrT : ∀ x ∈ rest, x ∈ T := fun x hx => hD x (by rw [hDeq]; exact List.mem_cons_of_mem _ hx)
    have hlen2 : rest.length + c.W.length + 1 ≤ 24 := by
      have : c.D.length = rest.length + 1 := by rw [hDeq]; simp
      omega
    rcases hcase with ⟨_, rfl⟩ | ⟨_, rfl⟩
    · exact ⟨hshape, hcells, hrT, hW, by dsimp only; omega⟩
    · refine ⟨hshape, hcells, hrT, ?_, ?_⟩
      · intro x hx
        rcases List.mem_append.mp hx with hx | hx
        · exact hW x hx
        · simp only [List.mem_singleton] at hx
          subst hx
          exact hdT
      · dsimp only
        simp only [List.length_append, List.length_singleton]
        omega
  · obtain ⟨hDeq, _, rfl⟩ := mem_recycleMovesC hr
    refine ⟨hshape, hcells, ?_, by simp, ?_⟩
    · intro x hx
      exact hW x (List.mem_reverse.mp hx)
    · dsimp only
      simp only [List.length_reverse, List.length_nil]
      omega

/-! ## The initial state of a checked deck satisfies the invariant -/

lemma lower_mem_combos {cards : List String} (h : checkDeck cards = none) :
    ∀ t ∈ cards, goToLower t ∈ combos := by
  obtain ⟨hlen, hcount⟩ := (checkDeck_none_iff cards).mp h
  intro t ht
  have hCombosNodup : combos.Nodup := by decide
  have hle : (combos : Multiset String) ≤ ↑(cards.map goToLower) := by
    rw [Multiset.le_iff_count]
    intro a
    rw [Multiset.coe_count, Multiset.coe_count]
    by_cases ha : a ∈ combos
    · rw [hcount a ha]
      exact List.nodup_iff_count_le_one.mp hCombosNodup a
    · rw [List.count_eq_zero_of_not_mem ha]
      exact Nat.zero_le _
  have hcard : Multiset.card (↑(cards.map goToLower) : Multiset String) ≤
      Multiset.card (combos : Multiset String) := by
    rw [Multiset.coe_card, Multiset.coe_card, List.length_map, hlen]
    have : combos.length = 52 := by decide
    omega
  have heq := Multiset.eq_of_le_of_card_le hle hcard
  have hmem : goToLower t ∈ cards.map goToLower := List.mem_map_of_mem _ ht
  have : goToLower t ∈ (combos : Multiset String) := by
    rw [heq]
    exact Multiset.mem_coe.mpr hmem
  exact Multiset.mem_coe.mp this

lemma validTok_of_mem_combos {t : String} (h : goToLower t ∈ combos) : ValidTok t := by
  have hud : (goToLower t).data = t.data.map Char.toLower := rfl
  refine ⟨?_, ?_, ?_⟩
  · intro h0
    subst h0
    exact absurd h (by decide)
  · intro h0
    subst h0
    exact absurd h (by decide)
  · intro ch hch
    have hno : ∀ x ∈ combos, ∀ c ∈ x.data, c ≠ ',' ∧ c ≠ ';' ∧ c ≠ '|' := by decide
    have hmem : ch.toLower ∈ (goToLower t).data := by
      rw [hud]
      exact List.mem_map_of_mem _ hch
    have hfacts := hno _ h ch.toLower hmem
    refine ⟨?_, ?_, ?_⟩
    · intro heq
      subst heq
      exact hfacts.1 (by decide)
    · intro heq
      subst heq
      exact hfacts.2.1 (by decide)
    · intro heq
      subst heq
      exact hfacts.2.2 (by decide)

lemma tokensOK_of_checkDeck {cards : List String} (h : checkDeck cards = none) :
    TokensOK cards :=
  fun t ht => validTok_of_mem_combos (lower_mem_combos h t ht)

lemma buildPyramid_getD {cards : List String} {r : Nat} (hr : r < 7) :
    (buildPyramid cards).getD r [] = (cards.drop (triangle r)).take (r + 1) := by
  have hlt : r < ((List.range 7).map
      (fun r => (cards.drop (triangle r)).take (r + 1))).length := by
    simp
    omega
  rw [buildPyramid, List.getD_eq_getElem _ _ hlt, List.getElem_map, List.getElem_range]

lemma buildPyramid_shape {cards : List String} (hlen : cards.length = 52) :
    PyrShape (buildPyramid cards) := by
  constructor
  · simp [buildPyramid]
  · intro r hr
    rw [buildPyramid_getD hr, List.length_take, List.length_drop, hlen]
    interval_cases r <;> simp [triangle]

lemma initial_invCore {cards : List String} (h : checkDeck cards = none) :
    InvCore cards (coreOf (initialState cards)) := by
  obtain ⟨hlen, _⟩ := (checkDeck_none_iff cards).mp h
  refine ⟨buildPyramid_shape hlen, ?_, ?_, ?_, ?_⟩
  · intro row hrow cell hcell
    right
    rw [coreOf] at hrow
    dsimp only [initialState] at hrow
    rw [buildPyramid, List.mem_map] at hrow
    obtain ⟨r, _, rfl⟩ := hrow
    exact List.drop_subset _ _ (List.take_subset _ _ hcell)
  · intro x hx
    rw [coreOf] at hx
    dsimp only [initialState] at hx
    exact List.drop_subset _ _ hx
  · intro x hx
    rw [coreOf] at hx
    dsimp only [initialState] at hx
    simp at hx
  · rw [coreOf]
    dsimp only [initialState]
    rw [List.length_drop, hlen]
    simp

/-! ## Unfolding lemmas for the solver -/

lemma solveStateF_zero (s : GameState) (v : Visited) : solveStateF 0 s v = none := rfl

lemma solveStateF_succ (fuel : Nat) (s : GameState) (v : Visited) :
    solveStateF (fuel + 1) s v =
      if isPyramidEmpty s.Pyramid then some (⟨s.Moves, countRemoved s.Pyramid⟩, v)
      else
        match vLookup v (serializeState s) with
        | some val =>
          if countRemoved s.Pyramid ≤ val then some (⟨s.Moves, countRemoved s.Pyramid⟩, v)
          else runFold (solveStateF fuel) (children s) ⟨s.Moves, countRemoved s.Pyramid⟩
            ((serializeState s, countRemoved s.Pyramid) :: v)
        | none => runFold (solveStateF fuel) (children s) ⟨s.Moves, countRemoved s.Pyramid⟩
            ((serializeState s, countRemoved s.Pyramid) :: v) := rfl

/-! ## Lifting between `children` and `childrenC` -/

lemma mem_children_iff {s b : GameState} :
    b ∈ children s ↔ ∃ pr ∈ childrenC (coreOf s),
      b = ⟨pr.1.P, pr.1.D, pr.1.W, s.Moves ++ [pr.2]⟩ := by
  rw [children, List.mem_map]
  constructor
  · rintro ⟨pr, hpr, rfl⟩
    exact ⟨pr, hpr, rfl⟩
  · rintro ⟨pr, hpr, rfl⟩
    exact ⟨pr, hpr, rfl⟩

lemma stepC_of_stepG {a b : GameState} (h : StepG a b) : StepC (coreOf a) (coreOf b) := by
  obtain ⟨pr, hpr, rfl⟩ := mem_children_iff.mp h
  rw [StepC, List.mem_map]
  exact ⟨pr, hpr, rfl⟩

lemma invCore_stepG {T : List String} {a b : GameState}
    (h : InvCore T (coreOf a)) (hs : StepG a b) : InvCore T (coreOf b) := by
  have hc := stepC_of_stepG hs
  rw [StepC, List.mem_map] at hc
  obtain ⟨pr, hpr, heq⟩ := hc
  rw [← heq]
  exact childrenC_invCore h hpr

lemma invCore_reachG {T : List String} {a b : GameState}
    (h : InvCore T (coreOf a)) (hr : ReachG a b) : InvCore T (coreOf b) := by
  induction hr with
  | refl => exact h
  | tail _ hstep ih => exact invCore_stepG ih hstep

/-! ## Every generated move is legal (C2 step facts) -/

lemma stepG_moveLegal {a b : GameState} (h : StepG a b) : MoveLegal a b := by
  obtain ⟨pr, hpr, rfl⟩ := mem_children_iff.mp h
  simp only [childrenC, List.mem_append] at hpr
  have hP : (coreOf a).P = a.Pyramid := rfl
  have hW : (coreOf a).W = a.Waste := rfl
  rcases hpr with ((((hk | hp) | hw) | hd) | hr)
  · obtain ⟨e, he, hv, rfl⟩ := mem_kingMovesC hk
    rw [mem_sortExposed, mem_getExposedCards] at he
    obtain ⟨_, _, hexp, hcard, hval⟩ := he
    rw [hP] at hexp hcard hval
    refine Or.inl ⟨e.row, e.col, hexp, ?_, rfl, rfl, rfl, ?_⟩
    · rw [← hval]
      exact hv
    · rw [← hcard]
  · obtain ⟨e, he, f, hf, hsum, rfl⟩ := mem_pairMovesC hp
    rw [mem_sortExposed, mem_getExposedCards] at he hf
    obtain ⟨_, _, hexpe, hcarde, hvale⟩ := he
    obtain ⟨_, _, hexpf, hcardf, hvalf⟩ := hf
    rw [hP] at hexpe hcarde hvale hexpf hcardf hvalf
    have hne : e.row ≠ f.row ∨ e.col ≠ f.col := by
      by_contra hcon
      push_neg at hcon
      rw [hcon.1, hcon.2] at hvale
      have heqv : e.value = f.value := hvale.trans hvalf.symm
      omega
    refine Or.inr (Or.inl ⟨e.row, e.col, f.row, f.col, hexpe, hexpf, hne, ?_, rfl, rfl, rfl, ?_⟩)
    · rw [← hvale, ← hvalf]
      exact hsum
    · rw [← hcarde, ← hcardf]
  · obtain ⟨top, hlast, e, he, hsum, rfl⟩ := mem_wasteMovesC hw
    rw [mem_sortExposed, mem_getExposedCards] at he
    obtain ⟨_, _, hexp, hcard, hval⟩ := he
    rw [hP] at hexp hcard hval
    rw [hW] at hlast
    refine Or.inr (Or.inr (Or.inl ⟨top, e.row, e.col, hlast, hexp, ?_, rfl, rfl, rfl, ?_⟩))
    · rw [← hval]
      exact hsum
    · rw [← hcard]
  · obtain ⟨d, rest, hDeq, hcase⟩ := mem_drawMovesC hd
    rcases hcase with ⟨hv, rfl⟩ | ⟨hv, rfl⟩
    · exact Or.inr (Or.inr (Or.inr (Or.inl ⟨d, rest, hDeq, hv, rfl, rfl, rfl, rfl⟩)))
    · exact Or.inr (Or.inr (Or.inr (Or.inr (Or.inl ⟨d, rest, hDeq, hv, rfl, rfl, rfl, rfl⟩))))
  · obtain ⟨hDeq, hWne, rfl⟩ := mem_recycleMovesC hr
    exact Or.inr (Or.inr (Or.inr (Or.inr (Or.inr ⟨hDeq, hWne, rfl, rfl, rfl, rfl⟩))))

/-! ## Every solver result is the outcome of a reachable state -/

lemma runFold_reach {s0 : GameState} (solve : GameState → Visited → Option (Result × Visited))
    (hsolve : ∀ c v res v2, c ∈ children s0 → solve c v = some (res, v2) →
      ∃ s2, ReachG c s2 ∧ res.Moves = s2.Moves ∧ res.RemovedCount = countRemoved s2.Pyramid) :
    ∀ (cs : List GameState) (best : Result) (v : Visited) (r : Result) (v' : Visited),
      (∀ c ∈ cs, c ∈ children s0) →
      (∃ s2, ReachG s0 s2 ∧ best.Moves = s2.Moves ∧
        best.RemovedCount = countRemoved s2.Pyramid) →
      runFold solve cs best v = some (r, v') →
      ∃ s2, ReachG s0 s2 ∧ r.Moves = s2.Moves ∧ r.RemovedCount = countRemoved s2.Pyramid := by
  intro cs
  induction cs with
  | nil =>
    intro best v r v' _ hbest h
    simp only [runFold, Option.some.injEq, Prod.mk.injEq] at h
    obtain ⟨h1, _⟩ := h
    exact h1 ▸ hbest
  | cons c cs ih =>
    intro best v r v' hcs hbest h
    rw [runFold] at h
    cases hc : solve c v with
    | none =>
      rw [hc] at h
      simp at h
    | some resv =>
      obtain ⟨res, v1⟩ := resv
      rw [hc] at h
      dsimp only at h
      obtain ⟨s2, hreach2, hm2, hc2⟩ := hsolve c v res v1 (hcs c (List.mem_cons_self _ _)) hc
      have hstep : ReachG s0 c := Relation.ReflTransGen.single (hcs c (List.mem_cons_self _ _))
      have hresGood : ∃ s2, ReachG s0 s2 ∧ res.Moves = s2.Moves ∧
          res.RemovedCount = countRemoved s2.Pyramid :=
        ⟨s2, hstep.trans hreach2, hm2, hc2⟩
      by_cases hlt : best.RemovedCount < res.RemovedCount
      · rw [if_pos hlt] at h
        by_cases h28 : res.RemovedCount = 28
        · rw [if_pos (by simpa using h28)] at h
          simp only [Option.some.injEq, Prod.mk.injEq] at h
          exact h.1 ▸ hresGood
        · rw [if_neg (by simpa using h28)] at h
          exact ih res v1 r v' (fun x hx => hcs x (List.mem_cons_of_mem _ hx)) hresGood h
      · rw [if_neg hlt] at h
        by_cases h28 : best.RemovedCount = 28
        · rw [if_pos (by simpa using h28)] at h
          simp only [Option.some.injEq, Prod.mk.injEq] at h
          exact h.1 ▸ hbest
        · rw [if_neg (by simpa using h28)] at h
          exact ih best v1 r v' (fun x hx => hcs x (List.mem_cons_of_mem _ hx)) hbest h

lemma solveStateF_reach :
    ∀ (fuel : Nat) (s : GameState) (v : Visited) (r : Result) (v' : Visited),
      solveStateF fuel s v = some (r, v') →
      ∃ s2, ReachG s s2 ∧ r.Moves = s2.Moves ∧ r.RemovedCount = countRemoved s2.Pyramid := by
  intro fuel
  induction fuel with
  | zero =>
    intro s v r v' h
    rw [solveStateF_zero] at h
    exact absurd h (by simp)
  | succ fuel ih =>
    intro s v r v' h
    rw [solveStateF_succ] at h
    have hself : ∃ s2, ReachG s s2 ∧ (Result.mk s.Moves (countRemoved s.Pyramid)).Moves = s2.Moves ∧
        (Result.mk s.Moves (countRemoved s.Pyramid)).RemovedCount = countRemoved s2.Pyramid :=
      ⟨s, Relation.ReflTransGen.refl, rfl, rfl⟩
    by_cases hemp : isPyramidEmpty s.Pyramid = true
    · rw [if_pos hemp] at h
      simp only [Option.some.injEq, Prod.mk.injEq] at h
      exact h.1 ▸ hself
    · rw [if_neg hemp] at h
      have hfold : ∀ (v0 : Visited),
          runFold (solveStateF fuel) (children s) ⟨s.Moves, countRemoved s.Pyramid⟩ v0 =
            some (r, v') →
          ∃ s2, ReachG s s2 ∧ r.Moves = s2.Moves ∧
            r.RemovedCount = countRemoved s2.Pyramid := by
        intro v0 hrun
        exact runFold_reach (solveStateF fuel)
          (fun c vv res v2 _ hc => ih c vv res v2 hc)
          (children s) _ v0 r v' (fun c hc => hc) hself hrun
      cases hvl : vLookup v (serializeState s) with
      | none =>
        rw [hvl] at h
        exact hfold _ h
      | some val =>
        rw [hvl] at h
        dsimp only at h
        by_cases hle : countRemoved s.Pyramid ≤ val
        · rw [if_pos hle] at h
          simp only [Option.some.injEq, Prod.mk.injEq] at h
          exact h.1 ▸ hself
        · rw [if_neg hle] at h
          exact hfold _ h

/-- C2 (confirmed): every `Result` the solver returns is the outcome of a
legal replay: there is a chain of legal moves (each removal hitting only an
occupied, exposed slot, each pair/waste pairing summing to 13, one log line
per move — the `MoveLegal` conjunct) from the initial state to a state whose
move log is exactly `Moves` and whose pyramid has `RemovedCount` cards
removed; and when `RemovedCount = 28` that replay leaves the pyramid fully
empty. -/
theorem solve_moves_replay (cards : List String) (fuel : Nat) (r : Result)
    (hdeck : checkDeck cards = none)
    (hrun : solvePyramidSolitaireF fuel cards = some r) :
    (∀ a b : GameState, StepG a b → MoveLegal a b) ∧
    ∃ s2, ReachG (initialState cards) s2 ∧ r.Moves = s2.Moves ∧
      r.RemovedCount = countRemoved s2.Pyramid ∧
      (r.RemovedCount = 28 → isPyramidEmpty s2.Pyramid = true) := by
  refine ⟨fun a b h => stepG_moveLegal h, ?_⟩
  rw [solvePyramidSolitaireF] at hrun
  rw [Option.map_eq_some'] at hrun
  obtain ⟨rv, hsv, hfst⟩ := hrun
  obtain ⟨rr, vv⟩ := rv
  obtain rfl : rr = r := hfst
  obtain ⟨s2, hreach, hm, hc⟩ := solveStateF_reach fuel _ [] rr vv hsv
  refine ⟨s2, hreach, hm, hc, ?_⟩
  intro h28
  have hinv := invCore_reachG (initial_invCore hdeck) hreach
  have hshape : PyrShape s2.Pyramid := hinv.1
  rw [isPyramidEmpty_iff hshape]
  rw [← hc]
  exact h28

/-- Witness for C2: on the concrete deal `wDeck` the solver returns a result
(fuel 18 suffices) and the replay guarantees hold for it. -/
theorem solve_moves_replay_witness :
    checkDeck wDeck = none ∧
    ∃ r, solvePyramidSolitaireF 18 wDeck = some r ∧
      ((∀ a b : GameState, StepG a b → MoveLegal a b) ∧
        ∃ s2, ReachG (initialState wDeck) s2 ∧ r.Moves = s2.Moves ∧
          r.RemovedCount = countRemoved s2.Pyramid ∧
          (r.RemovedCount = 28 → isPyramidEmpty s2.Pyramid = true)) := by
  have hdeck : checkDeck wDeck = none := by decide
  have hsome : (solvePyramidSolitaireF 18 wDeck).isSome = true := by decide
  obtain ⟨r, hr⟩ := Option.isSome_iff_exists.mp hsome
  exact ⟨hdeck, r, hr, solve_moves_replay wDeck 18 r hdeck hr⟩

/-! ## Visited-table lemmas -/

lemma vLookup_eq_none_iff {v : Visited} {k : String} :
    vLookup v k = none ↔ k ∉ vKeys v := by
  induction v with
  | nil => simp [vLookup, vKeys]
  | cons e rest ih =>
    obtain ⟨k1, n1⟩ := e
    by_cases hk : k1 = k
    · subst hk
      simp [vLookup, vKeys]
    · simp only [vLookup, if_neg hk, vKeys, List.map_cons, List.mem_cons, ih]
      constructor
      · intro h hm
        rcases hm with hm | hm
        · exact hk hm.symm
        · exact h hm
      · intro h hm
        exact h (Or.inr hm)

lemma vLookup_mem {v : Visited} {k : String} {val : Nat}
    (h : vLookup v k = some val) : (k, val) ∈ v := by
  induction v with
  | nil => simp [vLookup] at h
  | cons e rest ih =>
    obtain ⟨k1, n1⟩ := e
    by_cases hk : k1 = k
    · subst hk
      rw [vLookup, if_pos rfl] at h
      obtain rfl := Option.some_injective _ h
      exact List.mem_cons_self _ _
    · rw [vLookup, if_neg hk] at h
      exact List.mem_cons_of_mem _ (ih h)

lemma invCore_coreTokensOK {T : List String} (hT : TokensOK T) {c : Core}
    (h : InvCore T c) : CoreTokensOK c := by
  obtain ⟨⟨hlen, hrows⟩, hcells, hD, hW, _⟩ := h
  refine ⟨?_, fun x hx => hT x (hD x hx), fun x hx => hT x (hW x hx)⟩
  intro row hrow
  constructor
  · obtain ⟨i, hi, hget⟩ := List.mem_iff_getElem.mp hrow
    have hgd : c.P.getD i [] = row := by
      rw [List.getD_eq_getElem _ _ hi, hget]
    have hl := hrows i (by omega)
    rw [hgd] at hl
    intro h0
    rw [h0] at hl
    simp at hl
  · intro cell hcell
    rcases hcells row hrow cell hcell with h0 | h0
    · exact Or.inl h0
    · exact Or.inr (hT cell h0)

/-- The overwrite branch (`val < curRemoved` on a revisit) is dead code: for
token-valid tables the recorded value of a key is the removal count of the
unique core with that key. -/
lemma vLookup_val_eq {T : List String} (hT : TokensOK T) {v : Visited} {s : GameState}
    {val : Nat} (hv : InvV T v) (hs : InvCore T (coreOf s))
    (h : vLookup v (serializeState s) = some val) :
    val = countRemoved s.Pyramid := by
  have hmem := vLookup_mem h
  obtain ⟨core, hcore, hkey, hval⟩ := hv.2 _ hmem
  dsimp only at hkey hval
  have hceq : core = coreOf s := by
    apply serializeCore_inj_tok (invCore_coreTokensOK hT hcore)
      (invCore_coreTokensOK hT hs)
    exact hkey.symm
  rw [hval, hceq]
  rfl

/-! ## Fuel monotonicity -/

lemma runFold_congr {solve solve' : GameState → Visited → Option (Result × Visited)}
    (h : ∀ c v x, solve c v = some x → solve' c v = some x) :
    ∀ (cs : List GameState) (best : Result) (v : Visited) (x : Result × Visited),
      runFold solve cs best v = some x → runFold solve' cs best v = some x := by
  intro cs
  induction cs with
  | nil => intro best v x hx; exact hx
  | cons c cs ih =>
    intro best v x hx
    rw [runFold] at hx ⊢
    cases hc : solve c v with
    | none => rw [hc] at hx; simp at hx
    | some rv =>
      obtain ⟨res, v1⟩ := rv
      rw [hc] at hx
      rw [h c v _ hc]
      dsimp only at hx ⊢
      by_cases h28 : (if best.RemovedCount < res.RemovedCount then res
          else best).RemovedCount = 28
      · rwa [if_pos (by simpa using h28)] at hx ⊢
      · rw [if_neg (by simpa using h28)] at hx ⊢
        exact ih _ _ _ hx

lemma solveStateF_mono :
    ∀ (fuel : Nat) (s : GameState) (v : Visited) (x : Result × Visited),
      solveStateF fuel s v = some x → solveStateF (fuel + 1) s v = some x := by
  intro fuel
  induction fuel with
  | zero => intro s v x h; rw [solveStateF_zero] at h; exact absurd h (by simp)
  | succ fuel ih =>
    intro s v x h
    rw [solveStateF_succ] at h
    rw [solveStateF_succ]
    by_cases hemp : isPyramidEmpty s.Pyramid = true
    · rwa [if_pos hemp] at h ⊢
    · rw [if_neg hemp] at h ⊢
      cases hvl : vLookup v (serializeState s) with
      | none =>
        rw [hvl] at h
        exact runFold_congr ih _ _ _ _ h
      | some val =>
        rw [hvl] at h
        dsimp only at h ⊢
        by_cases hle : countRemoved s.Pyramid ≤ val
        · rwa [if_pos hle] at h ⊢
        · rw [if_neg hle] at h ⊢
          exact runFold_congr ih _ _ _ _ h

lemma solveStateF_mono_le {fuel fuel2 : Nat} (hle : fuel ≤ fuel2) :
    ∀ {s : GameState} {v : Visited} {x : Result × Visited},
      solveStateF fuel s v = some x → solveStateF fuel2 s v = some x := by
  induction hle with
  | refl => exact fun h => h
  | step _ ih => exact fun h => solveStateF_mono _ _ _ _ (ih h)

/-! ## Invariant preservation through the solver -/

lemma children_invCore {T : List String} {s : GameState}
    (hs : InvCore T (coreOf s)) : ∀ c ∈ children s, InvCore T (coreOf c) := by
  intro c hc
  obtain ⟨pr, hpr, rfl⟩ := mem_children_iff.mp hc
  exact childrenC_invCore hs hpr

lemma insert_invV {T : List String} {v : Visited} {s : GameState}
    (hv : InvV T v) (hs : InvCore T (coreOf s))
    (hfresh : serializeState s ∉ vKeys v) :
    InvV T ((serializeState s, countRemoved s.Pyramid) :: v) := by
  constructor
  · rw [vKeys, List.map_cons]
    exact List.Nodup.cons (by simpa [vKeys] using hfresh) hv.1
  · intro e he
    rcases List.mem_cons.mp he with rfl | he
    · exact ⟨coreOf s, hs, rfl, rfl⟩
    · exact hv.2 e he

lemma solveStateF_inv {T : List String} (hT : TokensOK T) :
    ∀ (fuel : Nat) (s : GameState) (v : Visited) (r : Result) (v' : Visited),
      InvCore T (coreOf s) → InvV T v → solveStateF fuel s v = some (r, v') →
      InvV T v' ∧ v.length ≤ v'.length := by
  intro fuel
  induction fuel with
  | zero => intro s v r v' _ _ h; rw [solveStateF_zero] at h; exact absurd h (by simp)
  | succ fuel ih =>
    intro s v r v' hs hv h
    rw [solveStateF_succ] at h
    have hfold : ∀ (cs : List GameState), (∀ c ∈ cs, InvCore T (coreOf c)) →
        ∀ (best : Result) (w : Visited) (rOut : Result) (wOut : Visited), InvV T w →
        runFold (solveStateF fuel) cs best w = some (rOut, wOut) →
        InvV T wOut ∧ w.length ≤ wOut.length := by
      intro cs
      induction cs with
      | nil =>
        intro _ best w rOut wOut hw hrun
        simp only [runFold, Option.some.injEq, Prod.mk.injEq] at hrun
        rw [← hrun.2]
        exact ⟨hw, Nat.le_refl _⟩
      | cons c cs ihc =>
        intro hcs best w rOut wOut hw hrun
        rw [runFold] at hrun
        cases hc : solveStateF fuel c w with
        | none => rw [hc] at hrun; simp at hrun
        | some rv =>
          obtain ⟨res, w1⟩ := rv
          rw [hc] at hrun
          dsimp only at hrun
          obtain ⟨hw1, hlen1⟩ := ih c w res w1 (hcs c (List.mem_cons_self _ _)) hw hc
          by_cases h28 : (if best.RemovedCount < res.RemovedCount then res
              else best).RemovedCount = 28
          · rw [if_pos (by simpa using h28)] at hrun
            simp only [Option.some.injEq, Prod.mk.injEq] at hrun
            rw [← hrun.2]
            exact ⟨hw1, hlen1⟩
          · rw [if_neg (by simpa using h28)] at hrun
            obtain ⟨hw2, hlen2⟩ := ihc (fun x hx => hcs x (List.mem_cons_of_mem _ hx))
              _ w1 rOut wOut hw1 hrun
            exact ⟨hw2, Nat.le_trans hlen1 hlen2⟩
    by_cases hemp : isPyramidEmpty s.Pyramid = true
    · rw [if_pos hemp] at h
      simp only [Option.some.injEq, Prod.mk.injEq] at h
      rw [← h.2]
      exact ⟨hv, Nat.le_refl _⟩
    · rw [if_neg hemp] at h
      cases hvl : vLookup v (serializeState s) with
      | none =>
        rw [hvl] at h
        have hfresh : serializeState s ∉ vKeys v := vLookup_eq_none_iff.mp hvl
        obtain ⟨hw, hlen⟩ := hfold (children s) (children_invCore hs) _ _ r v'
          (insert_invV hv hs hfresh) h
        refine ⟨hw, ?_⟩
        have : v.length + 1 ≤ v'.length := by simpa using hlen
        omega
      | some val =>
        rw [hvl] at h
        dsimp only at h
        by_cases hle : countRemoved s.Pyramid ≤ val
        · rw [if_pos hle] at h
          simp only [Option.some.injEq, Prod.mk.injEq] at h
          rw [← h.2]
          exact ⟨hv, Nat.le_refl _⟩
        · exfalso
          exact hle (Nat.le_of_eq (vLookup_val_eq hT hv hs hvl).symm)

/-! ## Finiteness of the key space -/

lemma finite_bounded_lists {α : Type} {S : Set α} (hS : S.Finite) :
    ∀ n : Nat, {l : List α | l.length ≤ n ∧ ∀ x ∈ l, x ∈ S}.Finite := by
  intro n
  induction n with
  | zero =>
    apply Set.Finite.subset (Set.finite_singleton ([] : List α))
    intro l hl
    have h0 : l = [] := List.length_eq_zero.mp (Nat.le_zero.mp hl.1)
    simp [h0]
  | succ n ihn =>
    apply Set.Finite.subset
      (Set.Finite.insert [] ((hS.prod ihn).image (fun p : α × List α => p.1 :: p.2)))
    intro l hl
    obtain ⟨hlen, hmem⟩ := hl
    cases l with
    | nil => exact Set.mem_insert _ _
    | cons a t =>
      refine Set.mem_insert_of_mem _ ⟨(a, t), ⟨?_, ?_, ?_⟩, rfl⟩
      · exact hmem a (List.mem_cons_self _ _)
      · simpa using Nat.le_of_succ_le_succ (by simpa using hlen)
      · exact fun x hx => hmem x (List.mem_cons_of_mem _ hx)

lemma row_length_of_shape {p : List (List String)} (hs : PyrShape p) :
    ∀ row ∈ p, row.length ≤ 7 := by
  obtain ⟨hlen, hrows⟩ := hs
  intro row hrow
  obtain ⟨i, hi, hget⟩ := List.mem_iff_getElem.mp hrow
  have hgd : p.getD i [] = row := by
    rw [List.getD_eq_getElem _ _ hi, hget]
  have hl := hrows i (by omega)
  rw [hgd] at hl
  omega

lemma invCore_set_finite (T : List String) : {c : Core | InvCore T c}.Finite := by
  have hcell : (insert emptyStr {x | x ∈ T} : Set String).Finite :=
    Set.Finite.insert _ T.finite_toSet
  have hrowset := finite_bounded_lists hcell 7
  have hpset := finite_bounded_lists hrowset 7
  have hdset := finite_bounded_lists (List.finite_toSet T) 24
  apply Set.Finite.subset
    (((hpset.prod (hdset.prod hdset)).image
      (fun t : List (List String) × List String × List String => Core.mk t.1 t.2.1 t.2.2)))
  intro c hc
  obtain ⟨hshape, hcells, hD, hW, hdw⟩ := hc
  refine ⟨(c.P, c.D, c.W), ⟨⟨?_, ?_⟩, ⟨?_, ?_⟩, ⟨?_, ?_⟩⟩, by cases c; rfl⟩
  · have h7 := hshape.1
    dsimp only
    omega
  · intro row hrow
    refine ⟨row_length_of_shape hshape row hrow, ?_⟩
    intro x hx
    rcases hcells row hrow x hx with h0 | h0
    · exact Set.mem_insert_iff.mpr (Or.inl h0)
    · exact Set.mem_insert_iff.mpr (Or.inr h0)
  · dsimp only
    omega
  · exact fun x hx => hD x hx
  · dsimp only
    omega
  · exact fun x hx => hW x hx

lemma keySpace_finite (T : List String) : (KeySpace T).Finite := by
  apply Set.Finite.subset ((invCore_set_finite T).image serializeCore)
  intro k hk
  obtain ⟨c, hc, rfl⟩ := hk
  exact ⟨c, hc, rfl⟩

lemma invV_length_le {T : List String} {w : Visited} (hw : InvV T w) :
    w.length ≤ (keySpace_finite T).toFinset.card := by
  have hkeys : ∀ k ∈ vKeys w, k ∈ (keySpace_finite T).toFinset := by
    intro k hk
    rw [Set.Finite.mem_toFinset]
    rw [vKeys, List.mem_map] at hk
    obtain ⟨e, he, rfl⟩ := hk
    obtain ⟨core, hcore, hkeq, _⟩ := hw.2 e he
    exact ⟨core, hcore, hkeq⟩
  have hlen : w.length = (vKeys w).length := by simp [vKeys]
  rw [hlen]
  calc (vKeys w).length = (vKeys w).toFinset.card :=
        (List.toFinset_card_of_nodup hw.1).symm
    _ ≤ (keySpace_finite T).toFinset.card :=
        Finset.card_le_card (fun k hk => hkeys k (List.mem_toFinset.mp hk))

/-! ## Termination of the search -/

lemma solveStateF_terminates_aux {T : List String} (hT : TokensOK T) (B : Nat)
    (hB : ∀ w : Visited, InvV T w → w.length ≤ B) :
    ∀ n : Nat, ∀ (s : GameState) (v : Visited), InvCore T (coreOf s) → InvV T v →
      B ≤ v.length + n → ∃ fuel x, solveStateF fuel s v = some x := by
  intro n
  induction n with
  | zero =>
    intro s v hs hv hBn
    by_cases hemp : isPyramidEmpty s.Pyramid = true
    · exact ⟨0 + 1, (⟨s.Moves, countRemoved s.Pyramid⟩, v),
        by rw [solveStateF_succ, if_pos hemp]⟩
    · cases hvl : vLookup v (serializeState s) with
      | some val =>
        have hle : countRemoved s.Pyramid ≤ val :=
          Nat.le_of_eq (vLookup_val_eq hT hv hs hvl).symm
        refine ⟨0 + 1, (⟨s.Moves, countRemoved s.Pyramid⟩, v), ?_⟩
        rw [solveStateF_succ, if_neg hemp, hvl]
        dsimp only
        rw [if_pos hle]
      | none =>
        exfalso
        have hfresh : serializeState s ∉ vKeys v := vLookup_eq_none_iff.mp hvl
        have hv0 := insert_invV hv hs hfresh
        have := hB _ hv0
        simp only [List.length_cons] at this
        omega
  | succ n ih =>
    intro s v hs hv hBn
    by_cases hemp : isPyramidEmpty s.Pyramid = true
    · exact ⟨0 + 1, (⟨s.Moves, countRemoved s.Pyramid⟩, v),
        by rw [solveStateF_succ, if_pos hemp]⟩
    · cases hvl : vLookup v (serializeState s) with
      | some val =>
        have hle : countRemoved s.Pyramid ≤ val :=
          Nat.le_of_eq (vLookup_val_eq hT hv hs hvl).symm
        refine ⟨0 + 1, (⟨s.Moves, countRemoved s.Pyramid⟩, v), ?_⟩
        rw [solveStateF_succ, if_neg hemp, hvl]
        dsimp only
        rw [if_pos hle]
      | none =>
        have hfresh : serializeState s ∉ vKeys v := vLookup_eq_none_iff.mp hvl
        have hv0 := insert_invV hv hs hfresh
        have hfold : ∀ (cs : List GameState), (∀ c ∈ cs, InvCore T (coreOf c)) →
            ∀ (best : Result) (w : Visited), InvV T w → v.length + 1 ≤ w.length →
            ∃ fuel out, runFold (solveStateF fuel) cs best w = some out := by
          intro cs
          induction cs with
          | nil => exact fun _ best w _ _ => ⟨0, (best, w), rfl⟩
          | cons c cs ihc =>
            intro hcs best w hw hwlen
            obtain ⟨fuel1, x1, h1⟩ := ih c w (hcs c (List.mem_cons_self _ _)) hw (by omega)
            obtain ⟨res, w1⟩ := x1
            obtain ⟨hw1, hlen1⟩ :=
              solveStateF_inv hT fuel1 c w res w1 (hcs c (List.mem_cons_self _ _)) hw h1
            by_cases h28 : (if best.RemovedCount < res.RemovedCount then res
                else best).RemovedCount = 28
            · refine ⟨fuel1,
                ((if best.RemovedCount < res.RemovedCount then res else best), w1), ?_⟩
              rw [runFold, h1]
              dsimp only
              rw [if_pos (by simpa using h28)]
            · obtain ⟨fuel2, out, h2⟩ :=
                ihc (fun x hx => hcs x (List.mem_cons_of_mem _ hx))
                  (if best.RemovedCount < res.RemovedCount then res else best) w1 hw1
                  (Nat.le_trans hwlen hlen1)
              refine ⟨max fuel1 fuel2, out, ?_⟩
              have h1m := solveStateF_mono_le (Nat.le_max_left fuel1 fuel2) h1
              have h2m : runFold (solveStateF (max fuel1 fuel2)) cs
                  (if best.RemovedCount < res.RemovedCount then res else best) w1 =
                    some out :=
                runFold_congr
                  (fun c2 v2 x2 hx2 =>
                    solveStateF_mono_le (Nat.le_max_right fuel1 fuel2) hx2) _ _ _ _ h2
              rw [runFold, h1m]
              dsimp only
              rw [if_neg (by simpa using h28)]
              exact h2m
        obtain ⟨fuel, out, hout⟩ := hfold (children s) (children_invCore hs)
          ⟨s.Moves, countRemoved s.Pyramid⟩
          ((serializeState s, countRemoved s.Pyramid) :: v) hv0 (by simp)
        exact ⟨fuel + 1, out, by rw [solveStateF_succ, if_neg hemp, hvl]; exact hout⟩

/-- C1 (confirmed): on every valid 52-card deck the search terminates — there
is a fuel bound past which `solvePyramidSolitaireF` returns the same fixed
result (the Go recursion, which carries no fuel, computes exactly that stable
value) — and the returned `RemovedCount` lies between 0 and 28. -/
theorem solve_terminates (cards : List String) (hdeck : checkDeck cards = none) :
    ∃ (fuel : Nat) (r : Result), solvePyramidSolitaireF fuel cards = some r ∧
      (∀ fuel2, fuel ≤ fuel2 → solvePyramidSolitaireF fuel2 cards = some r) ∧
      0 ≤ r.RemovedCount ∧ r.RemovedCount ≤ 28 := by
  have hT := tokensOK_of_checkDeck hdeck
  have hs := initial_invCore hdeck
  have hv : InvV cards [] := ⟨List.nodup_nil, fun e he => absurd he (List.not_mem_nil e)⟩
  obtain ⟨fuel, x, hrun⟩ := solveStateF_terminates_aux hT
    (keySpace_finite cards).toFinset.card (fun w hw => invV_length_le hw)
    (keySpace_finite cards).toFinset.card (initialState cards) [] hs hv (by simp)
  obtain ⟨r, v'⟩ := x
  refine ⟨fuel, r, ?_, ?_, Nat.zero_le _, ?_⟩
  · rw [solvePyramidSolitaireF, hrun]
    rfl
  · intro fuel2 hle
    rw [solvePyramidSolitaireF, solveStateF_mono_le hle hrun]
    rfl
  · obtain ⟨s2, hreach, _, hc⟩ := solveStateF_reach fuel _ [] r v' hrun
    have hinv := invCore_reachG hs hreach
    rw [hc]
    exact countRemoved_le_28 hinv.1

/-- Witness for C1 at the concrete valid deal `wDeck`. -/
theorem solve_terminates_witness :
    checkDeck wDeck = none ∧
    ∃ (fuel : Nat) (r : Result), solvePyramidSolitaireF fuel wDeck = some r ∧
      (∀ fuel2, fuel ≤ fuel2 → solvePyramidSolitaireF fuel2 wDeck = some r) ∧
      0 ≤ r.RemovedCount ∧ r.RemovedCount ≤ 28 :=
  ⟨by decide, solve_terminates wDeck (by decide)⟩

/-! ## Reachability tools for the pruning-soundness proof (C3) -/

lemma stepC_invCore {T : List String} {a u : Core} (ha : InvCore T a) (h : StepC a u) :
    InvCore T u := by
  rw [StepC, List.mem_map] at h
  obtain ⟨pr, hpr, rfl⟩ := h
  exact childrenC_invCore ha hpr

lemma reachAvoid_invCore {T : List String} {S : Set String} {a u : Core}
    (ha : InvCore T a) (h : ReachAvoid S a u) : InvCore T u := by
  induction h with
  | refl => exact ha
  | head hstep _ _ ih => exact ih (stepC_invCore ha hstep)

lemma reachAvoid_anti {S S2 : Set String} (hss : S ⊆ S2) {t u : Core}
    (h : ReachAvoid S2 t u) : ReachAvoid S t u := by
  induction h with
  | refl => exact ReachAvoid.refl _
  | head hstep hnot _ ih => exact ReachAvoid.head hstep (fun hm => hnot (hss hm)) ih

lemma reachAvoid_tail {S : Set String} {a b c : Core} (h : ReachAvoid S a b)
    (hstep : StepC b c) (hnot : serializeCore c ∉ S) : ReachAvoid S a c := by
  induction h with
  | refl => exact ReachAvoid.head hstep hnot (ReachAvoid.refl _)
  | head hstep2 hnot2 _ ih => exact ReachAvoid.head hstep2 hnot2 (ih hstep)

lemma reachAvoid_split {S : Set String} (k : String) {t u : Core}
    (h : ReachAvoid S t u) :
    ReachAvoid (insert k S) t u ∨
      ∃ x : Core, serializeCore x = k ∧ ReachAvoid S t x ∧ ReachAvoid (insert k S) x u := by
  induction h with
  | refl => exact Or.inl (ReachAvoid.refl _)
  | @head a b c hstep hnot hrest ih =>
    rcases ih with ih | ⟨x, hxk, hxr, hxu⟩
    · by_cases hbk : serializeCore b = k
      · exact Or.inr ⟨b, hbk, ReachAvoid.head hstep hnot (ReachAvoid.refl _), ih⟩
      · refine Or.inl (ReachAvoid.head hstep ?_ ih)
        intro hm
        rcases Set.mem_insert_iff.mp hm with hm | hm
        · exact hbk hm
        · exact hnot hm
    · exact Or.inr ⟨x, hxk, ReachAvoid.head hstep hnot hxr, hxu⟩

lemma reachG_to_reachAvoid {a b : GameState} (h : ReachG a b) :
    ReachAvoid ∅ (coreOf a) (coreOf b) := by
  induction h with
  | refl => exact ReachAvoid.refl _
  | tail _ hstep ih =>
    exact reachAvoid_tail ih (stepC_of_stepG hstep) (Set.not_mem_empty _)

lemma core_key_inj {T : List String} (hT : TokensOK T) {x y : Core}
    (hx : InvCore T x) (hy : InvCore T y)
    (h : serializeCore x = serializeCore y) : x = y :=
  serializeCore_inj_tok (invCore_coreTokensOK hT hx) (invCore_coreTokensOK hT hy) h

lemma covered_mono {T : List String} {v : Visited} {S : Set String} {b b2 : Nat}
    (hb : b ≤ b2) (h : Covered T v S b) : Covered T v S b2 :=
  fun t u ht hk hs hr => Nat.le_trans (h t u ht hk hs hr) hb

lemma covered_of_subset {T : List String} {v w : Visited} {S : Set String} {b : Nat}
    (hsub : ∀ k ∈ vKeys v, k ∈ vKeys w) (h : Covered T w S b) : Covered T v S b :=
  fun t u ht hk hs hr => h t u ht (hsub _ hk) hs hr

lemma stepC_lift {s : GameState} {u : Core} (h : StepC (coreOf s) u) :
    ∃ c ∈ children s, coreOf c = u := by
  rw [StepC, List.mem_map] at h
  obtain ⟨pr, hpr, rfl⟩ := h
  refine ⟨⟨pr.1.P, pr.1.D, pr.1.W, s.Moves ++ [pr.2]⟩, ?_, rfl⟩
  rw [mem_children_iff]
  exact ⟨pr, hpr, rfl⟩

/-- Soundness of the visited-table pruning.  `S` is the (ghost) set of keys of
the in-progress ancestor chain, `b` a bound already propagated towards the
root.  The call's result dominates the removal count of everything reachable
from `s` along paths avoiding `S`, and every newly finished table entry is
likewise dominated. -/
lemma solveStateF_sound {T : List String} (hT : TokensOK T) :
    ∀ (fuel : Nat) (s : GameState) (v : Visited) (r : Result) (v' : Visited)
      (S : Set String) (b : Nat),
      InvCore T (coreOf s) → InvV T v →
      (∀ k ∈ S, k ∈ vKeys v) →
      Covered T v S b →
      solveStateF fuel s v = some (r, v') →
      (∀ k ∈ vKeys v, k ∈ vKeys v') ∧
      countRemoved s.Pyramid ≤ r.RemovedCount ∧
      Covered T v' S (max b r.RemovedCount) ∧
      (serializeCore (coreOf s) ∉ S →
        ∀ u : Core, ReachAvoid S (coreOf s) u →
          countRemoved u.P ≤ max b r.RemovedCount) := by
  intro fuel
  induction fuel with
  | zero =>
    intro s v r v' S b _ _ _ _ h
    rw [solveStateF_zero] at h
    exact absurd h (by simp)
  | succ fuel ih =>
    intro s v r v' S b hs hv hSk hcov h
    rw [solveStateF_succ] at h
    by_cases hemp : isPyramidEmpty s.Pyramid = true
    · rw [if_pos hemp] at h
      simp only [Option.some.injEq, Prod.mk.injEq] at h
      obtain ⟨hbr, hvv⟩ := h
      subst hvv
      subst hbr
      have h28 : countRemoved s.Pyramid = 28 := (isPyramidEmpty_iff hs.1).mp hemp
      refine ⟨fun k hk => hk, Nat.le_refl _, covered_mono (Nat.le_max_left _ _) hcov, ?_⟩
      intro _ u hru
      have hu28 : countRemoved u.P ≤ 28 :=
        countRemoved_le_28 (reachAvoid_invCore hs hru).1
      dsimp only
      omega
    · rw [if_neg hemp] at h
      cases hvl : vLookup v (serializeState s) with
      | some val =>
        rw [hvl] at h
        dsimp only at h
        have hle : countRemoved s.Pyramid ≤ val :=
          Nat.le_of_eq (vLookup_val_eq hT hv hs hvl).symm
        rw [if_pos hle] at h
        simp only [Option.some.injEq, Prod.mk.injEq] at h
        obtain ⟨hbr, hvv⟩ := h
        subst hvv
        subst hbr
        have hkeymem : serializeState s ∈ vKeys v := by
          rw [vKeys, List.mem_map]
          exact ⟨_, vLookup_mem hvl, rfl⟩
        refine ⟨fun k hk => hk, Nat.le_refl _,
          covered_mono (Nat.le_max_left _ _) hcov, ?_⟩
        intro hnotS u hru
        exact Nat.le_trans (hcov (coreOf s) u hs hkeymem hnotS hru) (Nat.le_max_left _ _)
      | none =>
        rw [hvl] at h
        have hfresh : serializeState s ∉ vKeys v := vLookup_eq_none_iff.mp hvl
        have hnotS : serializeCore (coreOf s) ∉ S := fun hm => hfresh (hSk _ hm)
        have hv0 := insert_invV hv hs hfresh
        have hfold : ∀ (cs : List GameState), (∀ c ∈ cs, c ∈ children s) →
            ∀ (best : Result) (w : Visited) (rOut : Result) (wOut : Visited),
              InvV T w → (∀ k ∈ S, k ∈ vKeys w) →
              serializeCore (coreOf s) ∈ vKeys w →
              Covered T w (insert (serializeCore (coreOf s)) S) (max b best.RemovedCount) →
              runFold (solveStateF fuel) cs best w = some (rOut, wOut) →
              (∀ k ∈ vKeys w, k ∈ vKeys wOut) ∧
              best.RemovedCount ≤ rOut.RemovedCount ∧
              InvV T wOut ∧
              Covered T wOut (insert (serializeCore (coreOf s)) S) (max b rOut.RemovedCount) ∧
              (∀ c ∈ cs, serializeCore (coreOf c) ∉ insert (serializeCore (coreOf s)) S →
                ∀ u : Core, ReachAvoid (insert (serializeCore (coreOf s)) S) (coreOf c) u →
                  countRemoved u.P ≤ max b rOut.RemovedCount) := by
          intro cs
          induction cs with
          | nil =>
            intro _ best w rOut wOut hw _ _ hcw hrun
            simp only [runFold, Option.some.injEq, Prod.mk.injEq] at hrun
            obtain ⟨hbr, hww⟩ := hrun
            subst hww
            subst hbr
            exact ⟨fun k hk => hk, Nat.le_refl _, hw, hcw,
              fun c hc => absurd hc (List.not_mem_nil c)⟩
          | cons c cs ihc =>
            intro hcs best w rOut wOut hw hSw hks hcw hrun
            rw [runFold] at hrun
            cases hc : solveStateF fuel c w with
            | none =>
              rw [hc] at hrun
              simp at hrun
            | some rv =>
              obtain ⟨res, w1⟩ := rv
              rw [hc] at hrun
              dsimp only at hrun
              have hcchild := hcs c (List.mem_cons_self _ _)
              have hcInv : InvCore T (coreOf c) := children_invCore hs c hcchild
              obtain ⟨hkeys1, hcnt1, hcov1, hbound1⟩ :=
                ih c w res w1 (insert (serializeCore (coreOf s)) S)
                  (max b best.RemovedCount) hcInv hw
                  (fun k hk => by
                    rcases Set.mem_insert_iff.mp hk with hk | hk
                    · rw [hk]
                      exact hks
                    · exact hSw k hk)
                  hcw hc
              obtain ⟨hw1, _⟩ := solveStateF_inv hT fuel c w res w1 hcInv hw hc
              have hmax : max (max b best.RemovedCount) res.RemovedCount =
                  max b (if best.RemovedCount < res.RemovedCount then res
                    else best).RemovedCount := by
                by_cases hbr : best.RemovedCount < res.RemovedCount
                · rw [if_pos hbr]
                  omega
                · rw [if_neg hbr]
                  omega
              have hb1ge : best.RemovedCount ≤
                  (if best.RemovedCount < res.RemovedCount then res
                    else best).RemovedCount := by
                by_cases hbr : best.RemovedCount < res.RemovedCount
                · rw [if_pos hbr]
                  omega
                · rw [if_neg hbr]
              by_cases h28 : (if best.RemovedCount < res.RemovedCount then res
                  else best).RemovedCount = 28
              · rw [if_pos (by simpa using h28)] at hrun
                simp only [Option.some.injEq, Prod.mk.injEq] at hrun
                obtain ⟨hbr, hww⟩ := hrun
                subst hww
                rw [← hbr]
                refine ⟨hkeys1, hb1ge, hw1, ?_, ?_⟩
                · rw [← hmax]
                  exact hcov1
                · intro c2 hc2 hnot2 u hra2
                  rcases List.mem_cons.mp hc2 with hceq | hc2
                  · subst hceq
                    rw [← hmax]
                    exact hbound1 hnot2 u hra2
                  · have hc2Inv : InvCore T (coreOf c2) :=
                      children_invCore hs c2 (hcs c2 (List.mem_cons_of_mem _ hc2))
                    have hu28 : countRemoved u.P ≤ 28 :=
                      countRemoved_le_28 (reachAvoid_invCore hc2Inv hra2).1
                    omega
              · rw [if_neg (by simpa using h28)] at hrun
                obtain ⟨hkeys2, hcnt2, hw2, hcov2, hbound2⟩ :=
                  ihc (fun x hx => hcs x (List.mem_cons_of_mem _ hx))
                    (if best.RemovedCount < res.RemovedCount then res else best) w1
                    rOut wOut hw1 (fun k hk => hkeys1 k (hSw k hk)) (hkeys1 _ hks)
                    (by rw [← hmax]; exact hcov1) hrun
                refine ⟨fun k hk => hkeys2 k (hkeys1 k hk),
                  Nat.le_trans hb1ge hcnt2, hw2, hcov2, ?_⟩
                intro c2 hc2 hnot2 u hra2
                rcases List.mem_cons.mp hc2 with hceq | hc2
                · subst hceq
                  have hb1 := hbound1 hnot2 u hra2
                  rw [hmax] at hb1
                  omega
                · exact hbound2 c2 hc2 hnot2 u hra2
        have hkeyv0 : ∀ k ∈ S, k ∈ vKeys ((serializeState s, countRemoved s.Pyramid) :: v) := by
          intro k hk
          rw [vKeys, List.map_cons]
          exact List.mem_cons_of_mem _ (hSk k hk)
        have hcov0 : Covered T ((serializeState s, countRemoved s.Pyramid) :: v)
            (insert (serializeCore (coreOf s)) S)
            (max b (Result.mk s.Moves (countRemoved s.Pyramid)).RemovedCount) := by
          intro t u ht hktv hktS hra
          rw [vKeys, List.map_cons, List.mem_cons] at hktv
          rcases hktv with hktv | hktv
          · exact absurd (Set.mem_insert_iff.mpr (Or.inl hktv)) hktS
          · have hktS2 : serializeCore t ∉ S :=
              fun hm => hktS (Set.mem_insert_iff.mpr (Or.inr hm))
            have hra2 : ReachAvoid S t u :=
              reachAvoid_anti (Set.subset_insert _ _) hra
            exact Nat.le_trans (hcov t u ht hktv hktS2 hra2) (Nat.le_max_left _ _)
        obtain ⟨hkeysOut, hbest_le, _, hcovOut, hchild⟩ :=
          hfold (children s) (fun c hc => hc)
            ⟨s.Moves, countRemoved s.Pyramid⟩
            ((serializeState s, countRemoved s.Pyramid) :: v) r v' hv0 hkeyv0
            (by rw [vKeys, List.map_cons]; exact List.mem_cons_self _ _) hcov0 h
        have hb2 : ∀ u : Core,
            ReachAvoid (insert (serializeCore (coreOf s)) S) (coreOf s) u →
              countRemoved u.P ≤ max b r.RemovedCount := by
          intro u hru
          cases hru with
          | refl => exact Nat.le_trans hbest_le (Nat.le_max_right _ _)
          | head hstep hnotin hrest =>
            obtain ⟨c, hc, hcoreq⟩ := stepC_lift hstep
            refine hchild c hc ?_ u ?_
            · rw [hcoreq]
              exact hnotin
            · rw [hcoreq]
              exact hrest
        refine ⟨?_, hbest_le, ?_, ?_⟩
        · intro k hk
          refine hkeysOut k ?_
          rw [vKeys, List.map_cons]
          exact List.mem_cons_of_mem _ hk
        · intro t u ht hktv' hktS hra
          rcases reachAvoid_split (serializeCore (coreOf s)) hra with hra' | ⟨x, hxk, hxr, hxu⟩
          · by_cases hts : serializeCore t = serializeCore (coreOf s)
            · have hteq : t = coreOf s := core_key_inj hT ht hs hts
              subst hteq
              exact hb2 u hra'
            · refine hcovOut t u ht hktv' ?_ hra'
              intro hm
              rcases Set.mem_insert_iff.mp hm with hm | hm
              · exact hts hm
              · exact hktS hm
          · have hxInv : InvCore T x := reachAvoid_invCore ht hxr
            have hxeq : x = coreOf s := core_key_inj hT hxInv hs hxk
            exact hb2 u (hxeq ▸ hxu)
        · intro _ u hra
          rcases reachAvoid_split (serializeCore (coreOf s)) hra with hra' | ⟨x, hxk, hxr, hxu⟩
          · exact hb2 u hra'
          · have hxInv : InvCore T x := reachAvoid_invCore hs hxr
            have hxeq : x = coreOf s := core_key_inj hT hxInv hs hxk
            exact hb2 u (hxeq ▸ hxu)

/-! ## The unpruned search (C3) -/

lemma solveNoPruneF_zero (s : GameState) :
    solveNoPruneF 0 s = ⟨s.Moves, countRemoved s.Pyramid⟩ := rfl

lemma solveNoPruneF_succ (fuel : Nat) (s : GameState) :
    solveNoPruneF (fuel + 1) s =
      if isPyramidEmpty s.Pyramid then ⟨s.Moves, countRemoved s.Pyramid⟩
      else runFoldNP (solveNoPruneF fuel) (children s)
        ⟨s.Moves, countRemoved s.Pyramid⟩ := rfl

lemma runFoldNP_ge (solve : GameState → Result) :
    ∀ (cs : List GameState) (best : Result),
      best.RemovedCount ≤ (runFoldNP solve cs best).RemovedCount := by
  intro cs
  induction cs with
  | nil => exact fun best => Nat.le_refl _
  | cons c cs ihc =>
    intro best
    rw [runFoldNP]
    by_cases h28 : (if best.RemovedCount < (solve c).RemovedCount then solve c
        else best).RemovedCount = 28
    · rw [if_pos (by simpa using h28)]
      by_cases hlt : best.RemovedCount < (solve c).RemovedCount
      · rw [if_pos hlt]
        omega
      · rw [if_neg hlt]
    · rw [if_neg (by simpa using h28)]
      refine Nat.le_trans ?_ (ihc _)
      by_cases hlt : best.RemovedCount < (solve c).RemovedCount
      · rw [if_pos hlt]
        omega
      · rw [if_neg hlt]

lemma runFoldNP_ge_child (solve : GameState → Result) :
    ∀ (cs : List GameState) (best : Result) (c : GameState), c ∈ cs →
      (solve c).RemovedCount ≤ 28 →
      (solve c).RemovedCount ≤ (runFoldNP solve cs best).RemovedCount := by
  intro cs
  induction cs with
  | nil => intro best c hc; exact absurd hc (List.not_mem_nil c)
  | cons d cs ihc =>
    intro best c hc h28c
    rw [runFoldNP]
    by_cases h28 : (if best.RemovedCount < (solve d).RemovedCount then solve d
        else best).RemovedCount = 28
    · rw [if_pos (by simpa using h28)]
      rcases List.mem_cons.mp hc with rfl | hc
      · by_cases hlt : best.RemovedCount < (solve c).RemovedCount
        · rw [if_pos hlt] at h28 ⊢
        · rw [if_neg hlt] at h28 ⊢
          omega
      · omega
    · rw [if_neg (by simpa using h28)]
      rcases List.mem_cons.mp hc with rfl | hc
      · refine Nat.le_trans ?_ (runFoldNP_ge solve cs _)
        by_cases hlt : best.RemovedCount < (solve c).RemovedCount
        · rw [if_pos hlt]
        · rw [if_neg hlt]
          omega
      · exact ihc _ c hc h28c

lemma runFoldNP_reach {s0 : GameState} (solve : GameState → Result)
    (hsolve : ∀ c ∈ children s0, ∃ s2, ReachG c s2 ∧
      (solve c).RemovedCount = countRemoved s2.Pyramid) :
    ∀ (cs : List GameState) (best : Result),
      (∀ c ∈ cs, c ∈ children s0) →
      (∃ s2, ReachG s0 s2 ∧ best.RemovedCount = countRemoved s2.Pyramid) →
      ∃ s2, ReachG s0 s2 ∧ (runFoldNP solve cs best).RemovedCount = countRemoved s2.Pyramid := by
  intro cs
  induction cs with
  | nil => exact fun best _ hbest => hbest
  | cons c cs ihc =>
    intro best hcs hbest
    obtain ⟨s2, hs2, heq2⟩ := hsolve c (hcs c (List.mem_cons_self _ _))
    have hstep : ReachG s0 c := Relation.ReflTransGen.single (hcs c (List.mem_cons_self _ _))
    have hresGood : ∃ s2, ReachG s0 s2 ∧
        (solve c).RemovedCount = countRemoved s2.Pyramid := ⟨s2, hstep.trans hs2, heq2⟩
    rw [runFoldNP]
    have hbest1 : ∃ s2, ReachG s0 s2 ∧
        (if best.RemovedCount < (solve c).RemovedCount then solve c
          else best).RemovedCount = countRemoved s2.Pyramid := by
      by_cases hlt : best.RemovedCount < (solve c).RemovedCount
      · rw [if_pos hlt]
        exact hresGood
      · rw [if_neg hlt]
        exact hbest
    by_cases h28 : (if best.RemovedCount < (solve c).RemovedCount then solve c
        else best).RemovedCount = 28
    · rw [if_pos (by simpa using h28)]
      exact hbest1
    · rw [if_neg (by simpa using h28)]
      exact ihc _ (fun x hx => hcs x (List.mem_cons_of_mem _ hx)) hbest1

lemma solveNoPruneF_reach :
    ∀ (fuel : Nat) (s : GameState), ∃ s2, ReachG s s2 ∧
      (solveNoPruneF fuel s).RemovedCount = countRemoved s2.Pyramid := by
  intro fuel
  induction fuel with
  | zero => exact fun s => ⟨s, Relation.ReflTransGen.refl, rfl⟩
  | succ fuel ih =>
    intro s
    rw [solveNoPruneF_succ]
    by_cases hemp : isPyramidEmpty s.Pyramid = true
    · rw [if_pos hemp]
      exact ⟨s, Relation.ReflTransGen.refl, rfl⟩
    · rw [if_neg hemp]
      exact runFoldNP_reach (solveNoPruneF fuel) (fun c _ => ih c) (children s) _
        (fun c hc => hc) ⟨s, Relation.ReflTransGen.refl, rfl⟩

lemma solveNoPruneF_le_28 {T : List String} {s : GameState} (fuel : Nat)
    (hs : InvCore T (coreOf s)) : (solveNoPruneF fuel s).RemovedCount ≤ 28 := by
  obtain ⟨s2, hreach, heq⟩ := solveNoPruneF_reach fuel s
  rw [heq]
  exact countRemoved_le_28 (invCore_reachG hs hreach).1

lemma reachG_noPrune {T : List String} {s s2 : GameState} (h : ReachG s s2) :
    InvCore T (coreOf s) →
      ∃ fuel, countRemoved s2.Pyramid ≤ (solveNoPruneF fuel s).RemovedCount := by
  induction h using Relation.ReflTransGen.head_induction_on with
  | refl => exact fun _ => ⟨0, Nat.le_refl _⟩
  | @head a c hstep hreach ih =>
    intro hs
    have hcInv : InvCore T (coreOf c) := invCore_stepG hs hstep
    obtain ⟨fuel, hf⟩ := ih hcInv
    refine ⟨fuel + 1, ?_⟩
    rw [solveNoPruneF_succ]
    by_cases hemp : isPyramidEmpty a.Pyramid = true
    · rw [if_pos hemp]
      have h28 : countRemoved a.Pyramid = 28 := (isPyramidEmpty_iff hs.1).mp hemp
      have hle : countRemoved s2.Pyramid ≤ 28 :=
        countRemoved_le_28 (invCore_reachG hcInv hreach).1
      dsimp only
      omega
    · rw [if_neg hemp]
      have h28c : (solveNoPruneF fuel c).RemovedCount ≤ 28 :=
        solveNoPruneF_le_28 fuel hcInv
      exact Nat.le_trans hf (runFoldNP_ge_child _ (children a) _ c hstep h28c)

/-- C3 (confirmed, fuel-indexed reading): the identical search with the
visited-table pruning removed never beats the pruned search — at every fuel
its RemovedCount is at most the pruned result — and with enough fuel it
attains the pruned result, so the two searches agree on the final
RemovedCount (the unpruned recursion itself never terminates, so it is
compared at every finite exploration depth). -/
theorem pruning_preserves_best (cards : List String) (fuelP : Nat) (r : Result)
    (v' : Visited) (hdeck : checkDeck cards = none)
    (hrun : solveStateF fuelP (initialState cards) [] = some (r, v')) :
    (∀ fuel, (solveNoPruneF fuel (initialState cards)).RemovedCount ≤ r.RemovedCount) ∧
    (∃ fuel, r.RemovedCount ≤ (solveNoPruneF fuel (initialState cards)).RemovedCount) := by
  have hT := tokensOK_of_checkDeck hdeck
  have hs := initial_invCore hdeck
  have hv : InvV cards [] := ⟨List.nodup_nil, fun e he => absurd he (List.not_mem_nil e)⟩
  obtain ⟨_, _, _, hbound⟩ := solveStateF_sound hT fuelP _ [] r v' ∅ 0 hs hv
    (fun k hk => absurd hk (Set.not_mem_empty k))
    (fun t u _ hk => absurd hk (List.not_mem_nil _)) hrun
  have hroot : ∀ u : Core, ReachAvoid ∅ (coreOf (initialState cards)) u →
      countRemoved u.P ≤ r.RemovedCount := by
    intro u hu
    have hb := hbound (Set.not_mem_empty _) u hu
    omega
  constructor
  · intro fuel
    obtain ⟨s2, hreach, heq⟩ := solveNoPruneF_reach fuel (initialState cards)
    rw [heq]
    exact hroot (coreOf s2) (reachG_to_reachAvoid hreach)
  · obtain ⟨s2, hreach, _, hcnt⟩ := solveStateF_reach fuelP _ [] r v' hrun
    obtain ⟨fuel, hf⟩ := reachG_noPrune hreach hs
    exact ⟨fuel, by rw [hcnt]; exact hf⟩

/-- Witness for C3 on the concrete deal `wDeck` (pruned run at fuel 18). -/
theorem pruning_preserves_best_witness :
    checkDeck wDeck = none ∧
    ∃ (r : Result) (v' : Visited), solveStateF 18 (initialState wDeck) [] = some (r, v') ∧
      ((∀ fuel, (solveNoPruneF fuel (initialState wDeck)).RemovedCount ≤ r.RemovedCount) ∧
        (∃ fuel, r.RemovedCount ≤ (solveNoPruneF fuel (initialState wDeck)).RemovedCount)) := by
  have hdeck : checkDeck wDeck = none := by decide
  have hsome : (solveStateF 18 (initialState wDeck) []).isSome = true := by decide
  obtain ⟨x, hx⟩ := Option.isSome_iff_exists.mp hsome
  obtain ⟨r, v'⟩ := x
  exact ⟨hdeck, r, v', hx, pruning_preserves_best wDeck 18 r v' hdeck hx⟩

end PyramidSolver
